import Mathlib

/-!
Verification of the robot-arm command sequencing engine
(`robot_arm_gui.py`: `SerialManager`, `TimelineManager`, `ArmController`).

The Python classes are shallowly embedded as pure Lean functions over
explicit state records.  Python dictionary values (the step records are
`Dict[str, object]` populated from JSON) are modelled by the inductive
type `JVal` below, which covers the JSON fragment the program actually
manipulates: null, booleans, arbitrary-precision integers, strings,
arrays and objects.  (Floating point numbers and `\uXXXX` string
escapes of Python's `json` module are outside the model.)
-/

namespace RobotArm

mutual

inductive JVal : Type where
  | jnull : JVal
  | jbool : Bool → JVal
  | jint : Int → JVal
  | jstr : String → JVal
  | jarr : JItems → JVal
  | jobj : JFields → JVal
  deriving DecidableEq

inductive JItems : Type where
  | nil : JItems
  | cons : JVal → JItems → JItems
  deriving DecidableEq

inductive JFields : Type where
  | fnil : JFields
  | fcons : String → JVal → JFields → JFields
  deriving DecidableEq

end

/-- Key lookup in a Python dict (modelled as an ordered field list). -/
def JFields.lookup : JFields → String → Option JVal
  | .fnil, _ => none
  | .fcons k v r, key => if k = key then some v else JFields.lookup r key

/-- Embedding of `d.get(key, default)` on a Python dict. -/
def pyGet (d : JFields) (key : String) (dflt : JVal) : JVal :=
  (d.lookup key).getD dflt

/-- Python truthiness of a value (`bool(v)`). -/
def pyTruthy : JVal → Bool
  | .jnull => false
  | .jbool b => b
  | .jint n => decide (n ≠ 0)
  | .jstr s => decide (s ≠ "")
  | .jarr .nil => false
  | .jarr (.cons _ _) => true
  | .jobj .fnil => false
  | .jobj (.fcons _ _ _) => true

/-- Embedding of `isinstance(v, (int, float))` — Python `bool` is a subclass of `int`,
so booleans count as numeric. -/
def isPyNum : JVal → Bool
  | .jint _ => true
  | .jbool _ => true
  | _ => false

/-- Embedding of `v > 0` for the numeric values (only evaluated under the
`isinstance` guard in the source, so other cases are unreachable). -/
def pyGtZero : JVal → Bool
  | .jint n => decide (0 < n)
  | .jbool b => b
  | _ => false

/-- Embedding of `int(v)` for the numeric values (only evaluated under the
`isinstance` guard in the source). -/
def pyToInt : JVal → Int
  | .jint n => n
  | .jbool b => if b then 1 else 0
  | _ => 0

/-- Decimal digit character for `d < 10`. -/
def digitChar (d : Nat) : Char := Char.ofNat (48 + d)

/-- Fuel-indexed decimal rendering of a natural number
(most-significant digit first); `fuel > n` suffices. -/
def natDigitsF : Nat → Nat → List Char
  | 0, _ => []
  | fuel + 1, n =>
    if n < 10 then [digitChar n]
    else natDigitsF fuel (n / 10) ++ [digitChar (n % 10)]

/-- Decimal rendering of a natural number. -/
def natChars (n : Nat) : List Char := natDigitsF (n + 1) n

/-- Decimal rendering of an integer, as Python's `str` produces it. -/
def intChars (n : Int) : List Char :=
  if n < 0 then '-' :: natChars n.natAbs else natChars n.toNat

/-- Embedding of `str(n)` for a Python int. -/
def intStr (n : Int) : String := String.mk (intChars n)

/-- JSON string-body escaping (the characters the model round-trips). -/
def escChar (c : Char) : List Char :=
  if c = '"' then ['\\', '"']
  else if c = '\\' then ['\\', '\\']
  else if c = '\n' then ['\\', 'n']
  else if c = '\r' then ['\\', 'r']
  else if c = '\t' then ['\\', 't']
  else [c]

def escString : List Char → List Char
  | [] => []
  | c :: cs => escChar c ++ escString cs

/-- Serialised JSON string literal, quotes included. -/
def serStr (s : String) : List Char := '"' :: escString s.data ++ ['"']

mutual

/-- Model of `json.dumps` (the source calls it with `indent=2`; the
model renders compactly — the two renderings are content-equivalent
and the program never inspects the raw text). -/
def serVal : JVal → List Char
  | .jnull => ['n', 'u', 'l', 'l']
  | .jbool true => ['t', 'r', 'u', 'e']
  | .jbool false => ['f', 'a', 'l', 's', 'e']
  | .jint n => intChars n
  | .jstr s => serStr s
  | .jarr items => '[' :: serItems items ++ [']']
  | .jobj flds => '{' :: serFields flds ++ ['}']

def serItems : JItems → List Char
  | .nil => []
  | .cons v .nil => serVal v
  | .cons v (.cons w rest) => serVal v ++ ',' :: serItems (.cons w rest)

def serFields : JFields → List Char
  | .fnil => []
  | .fcons k v .fnil => serStr k ++ ':' :: serVal v
  | .fcons k v (.fcons k2 v2 rest) =>
    serStr k ++ ':' :: serVal v ++ ',' :: serFields (.fcons k2 v2 rest)

end

/-- Embedding of `str(v)` for a Python value.  Containers (never exercised by the
scalar-field step records) are rendered by their JSON text as a model
simplification. -/
def pyStr : JVal → String
  | .jstr s => s
  | .jint n => intStr n
  | .jbool true => "True"
  | .jbool false => "False"
  | .jnull => "None"
  | .jarr items => String.mk (serVal (.jarr items))
  | .jobj flds => String.mk (serVal (.jobj flds))

/-! ## String helpers

Python's `str.lower`, `str.endswith` and `str.strip` are modelled on
the character list directly (ASCII case folding and the common
whitespace characters; the exotic Unicode cases are outside the
model and outside every string the program produces). -/

def lowerChar (c : Char) : Char :=
  if 'A' ≤ c && c ≤ 'Z' then Char.ofNat (c.toNat + 32) else c

/-- Embedding of `s.lower()`. -/
def strLower (s : String) : String := String.mk (s.data.map lowerChar)

def listPrefixOf : List Char → List Char → Bool
  | [], _ => true
  | _ :: _, [] => false
  | a :: as, b :: bs => (a == b) && listPrefixOf as bs

/-- Embedding of `s.endswith(post)`. -/
def strEndsWith (s post : String) : Bool :=
  listPrefixOf post.data.reverse s.data.reverse

def wsChar (c : Char) : Bool := c = ' ' || c = '\t' || c = '\n' || c = '\r'

/-- Embedding of `s.strip()`. -/
def pyStrip (s : String) : String :=
  String.mk (((s.data.dropWhile wsChar).reverse.dropWhile wsChar).reverse)

/-! ## `SerialManager` (the line transport, `robot_arm_gui.py` 174-227)

State: `hasSer` models `self.ser is not None`, `running` models
`self.running`, `buffer` is the partial-line buffer, and `wire` records
the byte strings actually written to the serial handle.  `poll` takes
the chunk of decoded bytes the underlying `read(1024)` returned this
call and yields the lines handed to `on_line_callback`. -/

structure SMState where
  hasSer : Bool
  running : Bool
  buffer : String
  wire : List String
  deriving DecidableEq

/-- Embedding of `SerialManager.send_line`: no-op when no connection is open,
otherwise appends a newline if missing and writes (write errors are
swallowed, modelled as a successful write). -/
def SMState.send_line (st : SMState) (line : String) : SMState :=
  if st.hasSer then
    { st with wire := st.wire ++ [if strEndsWith line "\n" then line else line ++ "\n"] }
  else st

/-- The `while "\n" in self.buffer` loop of `SerialManager.poll`:
splits off every complete newline-terminated segment, strips it, and
keeps the trailing partial segment.  `acc` is the prefix of the current
segment scanned so far. -/
def scanLines (acc : List Char) : List Char → List String × List Char
  | [] => ([], acc)
  | c :: cs =>
    if c = '\n' then
      let r := scanLines [] cs
      (pyStrip (String.mk acc) :: r.1, r.2)
    else scanLines (acc ++ [c]) cs

/-- Embedding of `SerialManager.poll`, given the chunk `data` that `self.ser.read`
returned; produces the successor state and the lines delivered to the
callback, in order. -/
def SMState.poll (st : SMState) (data : String) : SMState × List String :=
  if st.hasSer && st.running then
    if data = "" then (st, [])
    else
      let r := scanLines [] (st.buffer ++ data).data
      ({ st with buffer := String.mk r.2 }, r.1)
  else (st, [])

/-! ## `ArmController` (the sequencer, `robot_arm_gui.py` 266-361)

The controller state mirrors the instance attributes set in
`__init__`/`play_sequence`.  `has_cb` records whether an `on_finished`
callback was supplied (`self.on_sequence_finished is not None`).  All
observable effects are collected in a trace of `Emit` entries: each
entry is either a command line handed to `ArmController.send` or the
invocation of the completion callback, and carries the value of
`self.playing` at the moment the effect happens (both the callback and
the serial layer can observe the controller, so the flag's value at
emission time is part of the observable behaviour). -/

inductive Ev where
  | line (s : String)
  | finished
  deriving DecidableEq

structure Emit where
  ev : Ev
  playingAt : Bool
  deriving DecidableEq

@[ext]
structure ArmState where
  playing : Bool
  current_sequence : List JFields
  current_step_idx : Nat
  waiting_for_ok : Bool
  rest_angle : Int
  loop_total : Int
  loop_remaining : Int
  has_cb : Bool
  deriving DecidableEq

structure Sys where
  arm : ArmState
  ser : SMState
  trace : List Emit
  deriving DecidableEq

/-- The controller as constructed (`ArmController.__init__`). -/
def initArm : ArmState :=
  { playing := false, current_sequence := [], current_step_idx := 0,
    waiting_for_ok := false, rest_angle := 90, loop_total := 1,
    loop_remaining := 1, has_cb := false }

/-- Embedding of `ArmController.send`: log the line and pass it to
`SerialManager.send_line`. -/
def send (s : Sys) (line : String) : Sys :=
  { s with trace := s.trace ++ [⟨.line line, s.arm.playing⟩],
           ser := s.ser.send_line line }

/-- A consecutive run of `self.send(...)` statements. -/
def sendAll (s : Sys) : List String → Sys
  | [] => s
  | l :: ls => sendAll (send s l) ls

/-- The fixed RestPose command lines of `ArmController.goto_rest` for a
given `self.rest_angle`. -/
def restLines (angle : Int) : List String :=
  let a := intStr angle
  ["M279", s!"M280 P0 S{a} V60", s!"M280 P1 S{a} V60", s!"M280 P2 S{a} V60",
   "M278", "M400"]

/-- Embedding of `ArmController.goto_rest`. -/
def goto_rest (s : Sys) : Sys :=
  sendAll s (restLines s.arm.rest_angle)

/-- The unconditional first five command lines issued for a step by
`ArmController._play_next_step`: begin-move marker, three servo moves
(angles default to `self.rest_angle`, speed defaults to 60), execute
marker. -/
def moveLines (restAngle : Int) (step : JFields) : List String :=
  let a0 := pyStr (pyGet step "servo0" (.jint restAngle))
  let a1 := pyStr (pyGet step "servo1" (.jint restAngle))
  let a2 := pyStr (pyGet step "servo2" (.jint restAngle))
  let v := pyStr (pyGet step "speed" (.jint 60))
  ["M279", s!"M280 P0 S{a0} V{v}", s!"M280 P1 S{a1} V{v}",
   s!"M280 P2 S{a2} V{v}", "M278"]

/-- The optional raw `nano_cmd` line: sent only when the stripped
field is non-empty. -/
def nanoOpt (step : JFields) : List String :=
  let nano := pyStrip (pyStr (pyGet step "nano_cmd" (.jstr "")))
  if nano ≠ "" then [nano] else []

/-- The command lines issued for one step by the body of
`ArmController._play_next_step` (lines 316-335): begin-move marker,
three servo moves, execute marker, the delay line when
`pause and isinstance(pause, (int, float)) and pause > 0`, the
stripped `nano_cmd` when non-empty, and the wait-until-idle marker. -/
def stepLines (restAngle : Int) (step : JFields) : List String :=
  let pv := pyGet step "pause" (.jint 0)
  let g := intStr (pyToInt pv)
  moveLines restAngle step
  ++ (if pyTruthy pv && isPyNum pv && pyGtZero pv then ["G4 P" ++ g] else [])
  ++ nanoOpt step
  ++ ["M400"]

/-- The step-issue part of `_play_next_step`: fetch the step at
`current_step_idx`, advance the index, emit the command block, set
`waiting_for_ok`.  (Indexing is modelled with a default; the guard in
`play_sequence` keeps the index in range in every reachable state.) -/
def issueStep (s : Sys) : Sys :=
  let step := s.arm.current_sequence.getD s.arm.current_step_idx .fnil
  let s1 : Sys :=
    { s with arm := { s.arm with current_step_idx := s.arm.current_step_idx + 1 } }
  let s2 := sendAll s1 (stepLines s1.arm.rest_angle step)
  { s2 with arm := { s2.arm with waiting_for_ok := true } }

/-- Embedding of `ArmController._play_next_step` (lines 296-336). -/
def playNextStep (s : Sys) : Sys :=
  if s.arm.playing = false then s
  else if s.arm.current_sequence.length ≤ s.arm.current_step_idx then
    let a1 := { s.arm with loop_remaining := s.arm.loop_remaining - 1 }
    if 0 < a1.loop_remaining then
      issueStep { s with arm := { a1 with current_step_idx := 0 } }
    else
      let s2 : Sys := { s with arm := { a1 with playing := false } }
      let s3 : Sys :=
        if s2.arm.has_cb then
          { s2 with trace := s2.trace ++ [⟨.finished, s2.arm.playing⟩] }
        else s2
      goto_rest s3
  else issueStep s

/-- The acknowledgment test of `ArmController.on_serial_line`:
`line.lower().endswith("ok")`. -/
def ackOk (line : String) : Bool := strEndsWith (strLower line) "ok"

/-- Embedding of `ArmController.on_serial_line` (lines 338-341). -/
def on_serial_line (s : Sys) (line : String) : Sys :=
  if s.arm.playing && s.arm.waiting_for_ok && ackOk line then
    playNextStep { s with arm := { s.arm with waiting_for_ok := false } }
  else s

/-- Embedding of `ArmController.play_sequence` (lines 283-294). -/
def play_sequence (s : Sys) (steps : List JFields) (loops : Int) (cb : Bool) :
    Sys :=
  if steps.isEmpty then s
  else
    let a : ArmState :=
      { playing := true, current_sequence := steps, current_step_idx := 0,
        waiting_for_ok := false, rest_angle := s.arm.rest_angle,
        loop_total := max 1 loops, loop_remaining := max 1 loops, has_cb := cb }
    playNextStep { s with arm := a }

/-- Embedding of `ArmController.stop_sequence` (lines 343-352). -/
def stop_sequence (s : Sys) : Sys :=
  if s.arm.playing = false then goto_rest (send s "M901")
  else
    let s1 : Sys :=
      { s with arm := { s.arm with playing := false, waiting_for_ok := false } }
    goto_rest (send s1 "M901")

/-! ## Run helpers for the playback theorems -/

/-- Command lines as trace entries carrying the `playing` flag `p`. -/
def lineEmits (p : Bool) (ls : List String) : List Emit :=
  ls.map (fun l => ⟨.line l, p⟩)

/-- Deliver `n` synthetic acknowledgment lines (`"ok"`) to
`on_serial_line`, oldest first. -/
def ackRun : Nat → Sys → Sys
  | 0, s => s
  | n + 1, s => on_serial_line (ackRun n s) "ok"

/-- The command block issued for the `j`-th acknowledged step of a
looped playback of `steps` (step `j % L` of the sequence). -/
def blockOf (steps : List JFields) (angle : Int) (j : Nat) : List String :=
  stepLines angle (steps.getD (j % steps.length) .fnil)

/-- Trace of the first `n` step-issue blocks of a looped playback. -/
def blocksUpTo (steps : List JFields) (angle : Int) : Nat → List Emit
  | 0 => []
  | n + 1 => blocksUpTo steps angle n ++ lineEmits true (blockOf steps angle n)

/-- Is this trace entry the completion-callback invocation? -/
def isFin (e : Emit) : Bool :=
  match e.ev with
  | .finished => true
  | .line _ => false

/-- The controller state after the `j`-th acknowledged step of a
playback of `steps` with clamped loop count `Kn` (started with
`rest_angle = A` and a completion callback): the `j`-th block has been
issued and the controller is waiting for its acknowledgment. -/
def runArm (steps : List JFields) (A : Int) (Kn : Nat) (j : Nat) : ArmState :=
  { playing := true, current_sequence := steps,
    current_step_idx := j % steps.length + 1, waiting_for_ok := true,
    rest_angle := A, loop_total := (Kn : Int),
    loop_remaining := (Kn : Int) - ((j / steps.length : Nat) : Int),
    has_cb := true }

/-- Number of completion-callback invocations recorded in a trace. -/
def countFinished (tr : List Emit) : Nat := tr.countP isFin

/-! ## Model of `json.loads` (recursive-descent, fuel-indexed)

The source delegates persistence to Python's `json` module; the model
below implements the fragment the program exercises (null, booleans,
integers, strings with the common escapes, arrays, objects).  The fuel
argument only bounds nesting/iteration; `loads` supplies `length + 1`
fuel, which the round-trip lemmas show is always sufficient for
serialized step lists. -/

def skipWs : List Char → List Char
  | [] => []
  | c :: cs => if wsChar c then skipWs cs else c :: cs

def unesc (c : Char) : Option Char :=
  if c = '"' then some '"'
  else if c = '\\' then some '\\'
  else if c = '/' then some '/'
  else if c = 'n' then some '\n'
  else if c = 'r' then some '\r'
  else if c = 't' then some '\t'
  else if c = 'b' then some (Char.ofNat 8)
  else if c = 'f' then some (Char.ofNat 12)
  else none

/-- Parse the body of a string literal (after the opening quote),
returning the decoded characters and the input after the closing
quote. -/
def parseStringBody : List Char → Option (List Char × List Char)
  | [] => none
  | c :: cs =>
    if c = '"' then some ([], cs)
    else if c = '\\' then
      match cs with
      | [] => none
      | e :: cs1 =>
        match unesc e with
        | none => none
        | some d =>
          match parseStringBody cs1 with
          | none => none
          | some (a, r) => some (d :: a, r)
    else
      match parseStringBody cs with
      | none => none
      | some (a, r) => some (c :: a, r)

def digitsToNat (ds : List Char) : Nat :=
  ds.foldl (fun a c => a * 10 + (c.toNat - 48)) 0

/-- Longest leading run of decimal digits. -/
def takeDigits : List Char → List Char × List Char
  | [] => ([], [])
  | c :: cs =>
    if c.isDigit then
      let r := takeDigits cs
      (c :: r.1, r.2)
    else ([], c :: cs)

def parseNumber : List Char → Option (JVal × List Char)
  | [] => none
  | c :: cs =>
    if c = '-' then
      match takeDigits cs with
      | ([], _) => none
      | (d :: ds, rest) => some (.jint (-(digitsToNat (d :: ds) : Int)), rest)
    else
      match takeDigits (c :: cs) with
      | ([], _) => none
      | (d :: ds, rest) => some (.jint ((digitsToNat (d :: ds) : Nat) : Int), rest)

/-- Expect the given literal keyword characters. -/
def parseLit : List Char → List Char → Option (List Char)
  | [], rest => some rest
  | _ :: _, [] => none
  | l :: ls, c :: cs => if c = l then parseLit ls cs else none

mutual

def parseVal : Nat → List Char → Option (JVal × List Char)
  | 0, _ => none
  | fuel + 1, cs =>
    match skipWs cs with
    | [] => none
    | c :: cs1 =>
      if c = '"' then
        match parseStringBody cs1 with
        | none => none
        | some (a, r) => some (.jstr (String.mk a), r)
      else if c = '[' then
        match skipWs cs1 with
        | [] => none
        | d :: cs2 =>
          if d = ']' then some (.jarr .nil, cs2)
          else
            match parseItems fuel (d :: cs2) with
            | none => none
            | some (items, r) => some (.jarr items, r)
      else if c = '{' then
        match skipWs cs1 with
        | [] => none
        | d :: cs2 =>
          if d = '}' then some (.jobj .fnil, cs2)
          else
            match parseFields fuel (d :: cs2) with
            | none => none
            | some (flds, r) => some (.jobj flds, r)
      else if c = 't' then
        match parseLit ['r', 'u', 'e'] cs1 with
        | none => none
        | some r => some (.jbool true, r)
      else if c = 'f' then
        match parseLit ['a', 'l', 's', 'e'] cs1 with
        | none => none
        | some r => some (.jbool false, r)
      else if c = 'n' then
        match parseLit ['u', 'l', 'l'] cs1 with
        | none => none
        | some r => some (.jnull, r)
      else if c = '-' || c.isDigit then parseNumber (c :: cs1)
      else none

def parseItems : Nat → List Char → Option (JItems × List Char)
  | 0, _ => none
  | fuel + 1, cs =>
    match parseVal fuel cs with
    | none => none
    | some (v, r1) =>
      match skipWs r1 with
      | [] => none
      | c :: r2 =>
        if c = ',' then
          match parseItems fuel r2 with
          | none => none
          | some (items, r3) => some (.cons v items, r3)
        else if c = ']' then some (.cons v .nil, r2)
        else none

def parseFields : Nat → List Char → Option (JFields × List Char)
  | 0, _ => none
  | fuel + 1, cs =>
    match skipWs cs with
    | [] => none
    | c :: cs1 =>
      if c = '"' then
        match parseStringBody cs1 with
        | none => none
        | some (k, r1) =>
          match skipWs r1 with
          | [] => none
          | d :: r2 =>
            if d = ':' then
              match parseVal fuel r2 with
              | none => none
              | some (v, r3) =>
                match skipWs r3 with
                | [] => none
                | e :: r4 =>
                  if e = ',' then
                    match parseFields fuel r4 with
                    | none => none
                    | some (flds, r5) => some (.fcons (String.mk k) v flds, r5)
                  else if e = '}' then some (.fcons (String.mk k) v .fnil, r4)
                  else none
            else none
      else none

end

/-- Model of `json.loads`: parse one value, reject trailing garbage. -/
def loads (s : String) : Option JVal :=
  match parseVal (s.length + 1) s.data with
  | none => none
  | some (v, rest) => if skipWs rest = [] then some v else none

/-! ## `TimelineManager` (`robot_arm_gui.py` 235-258)

`self.steps` is annotated `List[Dict[str, object]]` but
`from_json_str`/`load_from_file` assign it whatever `json.loads`
returns, so the model gives it type `JVal`.  A raised
`json.JSONDecodeError` is modelled as an `Except.error` result (the
state argument is unchanged in that case).  `save_to_file`/
`load_from_file` are the same serialisation composed with file I/O and
are modelled by the string-level pair. -/

structure TimelineManager where
  steps : JVal
  deriving DecidableEq

/-- Embedding of `TimelineManager.__init__` (the GUI-only `loop_count` attribute is
not part of the persisted or played state). -/
def TimelineManager.init : TimelineManager := ⟨.jarr .nil⟩

/-- Embedding of `TimelineManager.to_json` / the payload of `save_to_file`. -/
def TimelineManager.to_json (tm : TimelineManager) : String :=
  String.mk (serVal tm.steps)

/-- Embedding of `TimelineManager.from_json_str` / the effect of `load_from_file`
on the in-memory state. -/
def TimelineManager.from_json_str (tm : TimelineManager) (data : String) :
    Except String TimelineManager :=
  match loads data with
  | none => .error "json.JSONDecodeError"
  | some v => .ok { tm with steps := v }

/-- A step record with the documented persisted fields (`nano` models
the `nano_cmd` field). -/
structure StepRec where
  name : String
  servo0 : Int
  servo1 : Int
  servo2 : Int
  speed : Int
  pause : Int
  nano : String
  deriving DecidableEq

def StepRec.toJ (r : StepRec) : JVal :=
  .jobj (.fcons "name" (.jstr r.name) (.fcons "servo0" (.jint r.servo0)
    (.fcons "servo1" (.jint r.servo1) (.fcons "servo2" (.jint r.servo2)
    (.fcons "speed" (.jint r.speed) (.fcons "pause" (.jint r.pause)
    (.fcons "nano_cmd" (.jstr r.nano) .fnil)))))))

def itemsOf : List JVal → JItems
  | [] => .nil
  | v :: vs => .cons v (itemsOf vs)

/-- The stored representation of a sequence of step records. -/
def stepsJ (l : List StepRec) : JVal := .jarr (itemsOf (l.map StepRec.toJ))

/-! ## Spec-side definitions (used to state the claims, not taken from
the source) -/

def JFields.hasStr (f : JFields) (k : String) : Bool :=
  match f.lookup k with
  | some (.jstr _) => true
  | _ => false

def JFields.hasInt (f : JFields) (k : String) : Bool :=
  match f.lookup k with
  | some (.jint _) => true
  | _ => false

/-- Spec-side definition, following the claim's words: a well-formed
step record carries the documented fields with their documented
types. -/
def isStepRecord : JVal → Bool
  | .jobj f =>
    f.hasStr "name" && f.hasInt "servo0" && f.hasInt "servo1" &&
    f.hasInt "servo2" && f.hasInt "speed" && f.hasInt "pause" &&
    f.hasStr "nano_cmd"
  | _ => false

def allStepRecords : JItems → Bool
  | .nil => true
  | .cons v items => isStepRecord v && allStepRecords items

/-- Spec-side definition: the input text encodes a well-formed ordered
list of step records. -/
def isStepRecordList : JVal → Bool
  | .jarr items => allStepRecords items
  | _ => false

/-! ## Structural measures used by the parser round-trip lemmas -/

def isScalar : JVal → Bool
  | .jarr _ => false
  | .jobj _ => false
  | _ => true

def allScalarFields : JFields → Bool
  | .fnil => true
  | .fcons _ v r => isScalar v && allScalarFields r

def allFlatObjs : JItems → Bool
  | .nil => true
  | .cons (.jobj f) items => allScalarFields f && allFlatObjs items
  | .cons _ _ => false

def numFields : JFields → Nat
  | .fnil => 0
  | .fcons _ _ r => numFields r + 1

def numItems : JItems → Nat
  | .nil => 0
  | .cons _ items => numItems items + 1

/-- Parser fuel sufficient for one value of the flat shapes the step
lists produce. -/
def valNeed : JVal → Nat
  | .jobj f => numFields f + 2
  | _ => 1

/-- Parser fuel sufficient for a comma-separated run of flat items. -/
def itemsNeed : JItems → Nat
  | .nil => 1
  | .cons v items => max (valNeed v) (itemsNeed items) + 1

/-! ## Concrete inputs for witnesses and counterexamples -/

/-- The step of the spec's concrete scenario (§8). -/
def demoStep : JFields :=
  .fcons "name" (.jstr "A") (.fcons "servo0" (.jint 0) (.fcons "servo1" (.jint 90)
    (.fcons "servo2" (.jint 180) (.fcons "speed" (.jint 60)
    (.fcons "pause" (.jint 0) (.fcons "nano_cmd" (.jstr "") .fnil))))))

/-- A step with `pause = 500` and no secondary command. -/
def pauseStep : JFields :=
  .fcons "name" (.jstr "B") (.fcons "servo0" (.jint 10) (.fcons "servo1" (.jint 20)
    (.fcons "servo2" (.jint 30) (.fcons "speed" (.jint 40)
    (.fcons "pause" (.jint 500) (.fcons "nano_cmd" (.jstr "") .fnil))))))

/-- Freshly constructed application state with an open connection. -/
def sys0 : Sys := ⟨initArm, ⟨true, true, "", []⟩, []⟩

/-- Freshly constructed application state with no connection open. -/
def sysNoSer : Sys := ⟨initArm, ⟨false, false, "", []⟩, []⟩

/-- A state with `waiting_for_ok` set but no session active.  This
combination is unreachable through the controller's methods (every
reachable state satisfies `waiting_for_ok → playing`), but claim C4
quantifies over it. -/
def oddState : Sys :=
  ⟨{ initArm with waiting_for_ok := true }, ⟨true, true, "", []⟩, []⟩

/-- A mid-session state at the final acknowledgment point of the last
loop: one-step sequence already fully issued, last loop, waiting for
the closing acknowledgment. -/
def doneState : Sys :=
  ⟨{ playing := true, current_sequence := [demoStep], current_step_idx := 1,
     waiting_for_ok := true, rest_angle := 90, loop_total := 1,
     loop_remaining := 1, has_cb := true }, ⟨true, true, "", []⟩, []⟩

/-! # Theorems

First the component lemmas describing each embedded method, then the
claim theorems. -/

theorem send_arm (s : Sys) (l : String) : (send s l).arm = s.arm := rfl

theorem send_trace (s : Sys) (l : String) :
    (send s l).trace = s.trace ++ [⟨.line l, s.arm.playing⟩] := rfl

theorem sendAll_arm (s : Sys) (ls : List String) : (sendAll s ls).arm = s.arm := by
  induction ls generalizing s with
  | nil => rfl
  | cons l ls ih => simpa [sendAll] using ih (send s l)

theorem sendAll_trace (s : Sys) (ls : List String) :
    (sendAll s ls).trace = s.trace ++ lineEmits s.arm.playing ls := by
  induction ls generalizing s with
  | nil => simp [sendAll, lineEmits]
  | cons l ls ih =>
    simp only [sendAll]
    rw [ih (send s l)]
    simp [send, lineEmits]

theorem sendAll_ser (s : Sys) (ls : List String) :
    (sendAll s ls).ser = ls.foldl SMState.send_line s.ser := by
  induction ls generalizing s with
  | nil => rfl
  | cons l ls ih => simpa [sendAll, send] using ih (send s l)

theorem goto_rest_arm (s : Sys) : (goto_rest s).arm = s.arm :=
  sendAll_arm s (restLines s.arm.rest_angle)

theorem goto_rest_trace (s : Sys) :
    (goto_rest s).trace
      = s.trace ++ lineEmits s.arm.playing (restLines s.arm.rest_angle) :=
  sendAll_trace s (restLines s.arm.rest_angle)

theorem issueStep_arm (s : Sys) :
    (issueStep s).arm
      = { s.arm with current_step_idx := s.arm.current_step_idx + 1,
                     waiting_for_ok := true } := by
  simp [issueStep, sendAll_arm]

theorem issueStep_trace (s : Sys) :
    (issueStep s).trace
      = s.trace ++ lineEmits s.arm.playing
          (stepLines s.arm.rest_angle
            (s.arm.current_sequence.getD s.arm.current_step_idx .fnil)) := by
  simp [issueStep, sendAll_trace]

theorem playNextStep_issue (s : Sys) (hp : s.arm.playing = true)
    (hidx : s.arm.current_step_idx < s.arm.current_sequence.length) :
    playNextStep s = issueStep s := by
  simp [playNextStep, hp, Nat.not_le.mpr hidx]

theorem playNextStep_wrap (s : Sys) (hp : s.arm.playing = true)
    (hidx : s.arm.current_sequence.length ≤ s.arm.current_step_idx)
    (hlr : 1 < s.arm.loop_remaining) :
    playNextStep s
      = issueStep { s with arm :=
          { s.arm with loop_remaining := s.arm.loop_remaining - 1,
                       current_step_idx := 0 } } := by
  have h0 : (0 : Int) < s.arm.loop_remaining - 1 := by omega
  simp [playNextStep, hp, hidx, h0]

theorem playNextStep_done (s : Sys) (hp : s.arm.playing = true)
    (hidx : s.arm.current_sequence.length ≤ s.arm.current_step_idx)
    (hlr : s.arm.loop_remaining ≤ 1) (hcb : s.arm.has_cb = true) :
    playNextStep s
      = goto_rest { s with
          arm := { s.arm with loop_remaining := s.arm.loop_remaining - 1,
                              playing := false },
          trace := s.trace ++ [⟨.finished, false⟩] } := by
  have h0 : ¬ (0 : Int) < s.arm.loop_remaining - 1 := by omega
  simp [playNextStep, hp, hidx, h0, hcb]

theorem on_serial_line_noop (s : Sys) (l : String)
    (h : ¬(s.arm.playing = true ∧ s.arm.waiting_for_ok = true ∧ ackOk l = true)) :
    on_serial_line s l = s := by
  have : (s.arm.playing && s.arm.waiting_for_ok && ackOk l) = false := by
    rcases Bool.eq_false_or_eq_true s.arm.playing with h1 | h1 <;>
      rcases Bool.eq_false_or_eq_true s.arm.waiting_for_ok with h2 | h2 <;>
        rcases Bool.eq_false_or_eq_true (ackOk l) with h3 | h3 <;>
          simp_all
  simp [on_serial_line, this]

theorem on_serial_line_ack (s : Sys) (l : String) (hp : s.arm.playing = true)
    (hw : s.arm.waiting_for_ok = true) (hok : ackOk l = true) :
    on_serial_line s l
      = playNextStep { s with arm := { s.arm with waiting_for_ok := false } } := by
  simp [on_serial_line, hp, hw, hok]

theorem playNextStep_done_nocb (s : Sys) (hp : s.arm.playing = true)
    (hidx : s.arm.current_sequence.length ≤ s.arm.current_step_idx)
    (hlr : s.arm.loop_remaining ≤ 1) (hcb : s.arm.has_cb = false) :
    playNextStep s
      = goto_rest { s with
          arm := { s.arm with loop_remaining := s.arm.loop_remaining - 1,
                              playing := false } } := by
  have h0 : ¬ (0 : Int) < s.arm.loop_remaining - 1 := by omega
  simp [playNextStep, hp, hidx, h0, hcb]

theorem restLines_ninety :
    restLines 90
      = ["M279", "M280 P0 S90 V60", "M280 P1 S90 V60", "M280 P2 S90 V60",
         "M278", "M400"] := by decide

/-- Claim C4, counterexample.  The claim quantifies over every prior
state, including `waiting_for_ok` set with no session active; in that
(unreachable) state `stop_sequence` takes the not-playing branch,
which never touches `waiting_for_ok`, so the claimed post-state
`waiting-for-ack = false` fails. -/
theorem c4_cex_stop_keeps_stale_waiting_flag :
    ¬ ((stop_sequence oddState).arm.waiting_for_ok = false) := by decide

/-- Claim C4 (amended): provided the prior state satisfies the
controller's reachability invariant `waiting_for_ok → playing` (the
waiting flag is only ever set during an active session), a single
`stop_sequence` call leaves the sequencer idle (`playing = false`,
`waiting_for_ok = false`) and emits exactly the abort marker `M901`
followed by the six fixed RestPose lines, in that order — also when no
session is active. -/
theorem c4_stop_goes_idle_and_emits_abort_then_rest (s : Sys)
    (hinv : s.arm.waiting_for_ok = true → s.arm.playing = true)
    (ha : s.arm.rest_angle = 90) :
    (stop_sequence s).arm.playing = false
    ∧ (stop_sequence s).arm.waiting_for_ok = false
    ∧ (stop_sequence s).trace
        = s.trace ++ lineEmits false
            ["M901", "M279", "M280 P0 S90 V60", "M280 P1 S90 V60",
             "M280 P2 S90 V60", "M278", "M400"] := by
  by_cases hp : s.arm.playing = true
  · refine ⟨?_, ?_, ?_⟩
    · simp [stop_sequence, hp, goto_rest_arm, send_arm]
    · simp [stop_sequence, hp, goto_rest_arm, send_arm]
    · rw [show stop_sequence s
            = goto_rest (send { s with arm :=
                { s.arm with playing := false, waiting_for_ok := false } } "M901")
          from by simp [stop_sequence, hp]]
      rw [goto_rest_trace, send_trace, send_arm]
      simp [ha, restLines_ninety, lineEmits]
  · have hp' : s.arm.playing = false := by
      cases h : s.arm.playing
      · rfl
      · exact absurd h hp
    have hw : s.arm.waiting_for_ok = false := by
      cases h : s.arm.waiting_for_ok
      · rfl
      · rw [hinv h] at hp'
        simp at hp'
    refine ⟨?_, ?_, ?_⟩
    · simp [stop_sequence, hp', goto_rest_arm, send_arm]
    · simp [stop_sequence, hp', goto_rest_arm, send_arm, hw]
    · rw [show stop_sequence s = goto_rest (send s "M901")
          from by simp [stop_sequence, hp']]
      rw [goto_rest_trace, send_trace, send_arm]
      simp [ha, hp', restLines_ninety, lineEmits]

/-- Witness for the amended claim C4 at a concrete idle state. -/
theorem c4_witness :
    (stop_sequence sys0).arm.playing = false
    ∧ (stop_sequence sys0).arm.waiting_for_ok = false
    ∧ (stop_sequence sys0).trace
        = sys0.trace ++ lineEmits false
            ["M901", "M279", "M280 P0 S90 V60", "M280 P1 S90 V60",
             "M280 P2 S90 V60", "M278", "M400"] :=
  c4_stop_goes_idle_and_emits_abort_then_rest sys0 (by decide) (by decide)

/-- Claim C2, counterexample.  In the natural-completion run of a
one-step, one-loop session, `_play_next_step` sets `self.playing =
False` (the idle state) *before* invoking the completion callback, so
the callback observes `playing = false`: the claimed ordering
(playing does not become idle until after the callback and the
RestPose emission) fails on the code. -/
theorem c2_cex_idle_precedes_callback :
    ¬ (∀ e ∈ (ackRun 1 (play_sequence sys0 [demoStep] 1 true)).trace,
        isFin e = true → e.playingAt = true) := by decide

/-- Claim C2 (amended): on natural completion the sequencer first
leaves the playing state (`playing := false`) and clears the waiting
flag, and only then — already idle — invokes the completion callback
and emits the RestPose lines, the callback invocation preceding the
RestPose lines, all within the same `on_serial_line` call. -/
theorem c2_completion_callback_then_rest_after_idle (s : Sys) (line : String)
    (hp : s.arm.playing = true) (hw : s.arm.waiting_for_ok = true)
    (hidx : s.arm.current_sequence.length ≤ s.arm.current_step_idx)
    (hlr : s.arm.loop_remaining ≤ 1) (hcb : s.arm.has_cb = true)
    (hok : ackOk line = true) :
    (on_serial_line s line).arm.playing = false
    ∧ (on_serial_line s line).arm.waiting_for_ok = false
    ∧ (on_serial_line s line).trace
        = s.trace ++ ⟨.finished, false⟩ ::
            lineEmits false (restLines s.arm.rest_angle) := by
  rw [on_serial_line_ack s line hp hw hok,
      playNextStep_done _ (by simpa using hp) (by simpa using hidx)
        (by simpa using hlr) (by simpa using hcb)]
  refine ⟨by simp [goto_rest_arm], by simp [goto_rest_arm], ?_⟩
  rw [goto_rest_trace]
  simp

/-- Witness for the amended claim C2 at the final acknowledgment of a
concrete session. -/
theorem c2_witness :
    (on_serial_line doneState "ok").arm.playing = false
    ∧ (on_serial_line doneState "ok").arm.waiting_for_ok = false
    ∧ (on_serial_line doneState "ok").trace
        = doneState.trace ++ ⟨.finished, false⟩ ::
            lineEmits false (restLines doneState.arm.rest_angle) :=
  c2_completion_callback_then_rest_after_idle doneState "ok" (by decide)
    (by decide) (by decide) (by decide) (by decide) (by decide)

/-- Claim C7: the delay line is emitted iff the step's `pause` field
is a positive number — a step whose `pause` is an integer `p > 0`
emits exactly one delay line `"G4 P" ++ p`, placed directly after the
execute-move marker `M278` (the last entry of `moveLines`) and before
the optional `nano_cmd` line and the wait-until-idle marker `M400`; an
integer `pause ≤ 0` or a non-numeric `pause` (`isinstance(pause,
(int, float))` fails; Python booleans count as numeric) emits no delay
line at all. -/
theorem c7_pause_delay_line (restA : Int) (step : JFields) :
    (∀ p : Int, pyGet step "pause" (.jint 0) = .jint p → 0 < p →
      stepLines restA step
        = moveLines restA step ++ ["G4 P" ++ intStr p]
            ++ nanoOpt step ++ ["M400"])
    ∧ (∀ p : Int, pyGet step "pause" (.jint 0) = .jint p → p ≤ 0 →
      stepLines restA step
        = moveLines restA step ++ nanoOpt step ++ ["M400"])
    ∧ (isPyNum (pyGet step "pause" (.jint 0)) = false →
      stepLines restA step
        = moveLines restA step ++ nanoOpt step ++ ["M400"]) := by
  refine ⟨?_, ?_, ?_⟩
  · intro p hpv hpos
    have hne : p ≠ 0 := by omega
    simp [stepLines, hpv, pyTruthy, isPyNum, pyGtZero, pyToInt, hne, hpos]
  · intro p hpv hnonpos
    have hng : ¬ (0 : Int) < p := by omega
    simp [stepLines, hpv, pyTruthy, isPyNum, pyGtZero, pyToInt, hng]
  · intro hnum
    rcases hpv : pyGet step "pause" (.jint 0) with _ | b | n | t | it | fl <;>
      simp [stepLines, hpv, pyTruthy, isPyNum, pyGtZero] <;>
      simp [hpv] at hnum <;> simp_all [isPyNum]

/-- Witness for claim C7: a concrete step with `pause = 500` yields
exactly one `G4 P500` line, after `M278` and before `M400`. -/
theorem c7_witness :
    stepLines 90 pauseStep
      = ["M279", "M280 P0 S10 V40", "M280 P1 S20 V40", "M280 P2 S30 V40",
         "M278", "G4 P500", "M400"] := by
  rw [(c7_pause_delay_line 90 pauseStep).1 500 (by decide) (by decide)]
  decide

/-- Claim C8: `on_serial_line` advances the session exactly when a
session is active, the waiting flag is set, and the lowercase form of
the line ends with `"ok"` (case-insensitive suffix check): `"T:25 ok"`
matches, `"okidoki"` does not, `"OK"` matches; any line failing the
three-part condition leaves the whole state unchanged, and a matching
line clears the waiting flag and advances via `_play_next_step`. -/
theorem c8_ack_suffix_gate (s : Sys) (line : String) :
    (ackOk "T:25 ok" = true ∧ ackOk "okidoki" = false ∧ ackOk "OK" = true)
    ∧ (¬(s.arm.playing = true ∧ s.arm.waiting_for_ok = true
          ∧ ackOk line = true) →
        on_serial_line s line = s)
    ∧ ((s.arm.playing = true ∧ s.arm.waiting_for_ok = true
          ∧ ackOk line = true) →
        on_serial_line s line
          = playNextStep
              { s with arm := { s.arm with waiting_for_ok := false } }) :=
  ⟨⟨by decide, by decide, by decide⟩,
   fun h => on_serial_line_noop s line h,
   fun ⟨hp, hw, hok⟩ => on_serial_line_ack s line hp hw hok⟩

/-- Witness for claim C8: a non-matching line at a concrete state is a
no-op. -/
theorem c8_witness : on_serial_line sys0 "okidoki" = sys0 :=
  (c8_ack_suffix_gate sys0 "okidoki").2.1 (by decide)

/-! ## The serial state is write-only for the controller

`ArmController` only ever passes lines to `SerialManager.send_line`
and never reads the serial state, so the controller's state and trace
are independent of it; and `send_line` is a no-op when no connection
is open. -/

theorem send_line_noSer (st : SMState) (l : String) (h : st.hasSer = false) :
    st.send_line l = st := by
  simp [SMState.send_line, h]

theorem foldl_send_line_noSer (st : SMState) (ls : List String)
    (h : st.hasSer = false) : ls.foldl SMState.send_line st = st := by
  induction ls with
  | nil => rfl
  | cons l ls ih =>
    rw [List.foldl_cons, send_line_noSer st l h]
    exact ih

theorem sendAll_parts (a : ArmState) (x : SMState) (tr : List Emit)
    (ls : List String) :
    sendAll ⟨a, x, tr⟩ ls
      = ⟨a, ls.foldl SMState.send_line x, tr ++ lineEmits a.playing ls⟩ := by
  induction ls generalizing x tr with
  | nil => simp [sendAll, lineEmits]
  | cons l ls ih =>
    simp only [sendAll]
    show sendAll ⟨a, x.send_line l, tr ++ [⟨.line l, a.playing⟩]⟩ ls
        = ⟨a, List.foldl SMState.send_line x (l :: ls),
           tr ++ lineEmits a.playing (l :: ls)⟩
    have h := ih (x.send_line l) (tr ++ [⟨.line l, a.playing⟩])
    rw [h]
    simp [lineEmits, List.foldl_cons, List.append_assoc]

theorem issueStep_parts (a : ArmState) (x : SMState) (tr : List Emit) :
    issueStep ⟨a, x, tr⟩
      = ⟨{ a with current_step_idx := a.current_step_idx + 1,
                  waiting_for_ok := true },
         (stepLines a.rest_angle
            (a.current_sequence.getD a.current_step_idx .fnil)).foldl
           SMState.send_line x,
         tr ++ lineEmits a.playing
           (stepLines a.rest_angle
             (a.current_sequence.getD a.current_step_idx .fnil))⟩ := by
  simp only [issueStep]
  rw [show ({ (⟨a, x, tr⟩ : Sys) with arm :=
        { (⟨a, x, tr⟩ : Sys).arm with
          current_step_idx := (⟨a, x, tr⟩ : Sys).arm.current_step_idx + 1 } } : Sys)
      = ⟨{ a with current_step_idx := a.current_step_idx + 1 }, x, tr⟩ from rfl]
  rw [sendAll_parts]

theorem goto_rest_parts (a : ArmState) (x : SMState) (tr : List Emit) :
    goto_rest ⟨a, x, tr⟩
      = ⟨a, (restLines a.rest_angle).foldl SMState.send_line x,
         tr ++ lineEmits a.playing (restLines a.rest_angle)⟩ := by
  simp only [goto_rest]
  exact sendAll_parts a x tr (restLines a.rest_angle)

theorem playNextStep_swap (a : ArmState) (x y : SMState) (tr : List Emit) :
    (playNextStep ⟨a, x, tr⟩).arm = (playNextStep ⟨a, y, tr⟩).arm
    ∧ (playNextStep ⟨a, x, tr⟩).trace = (playNextStep ⟨a, y, tr⟩).trace := by
  by_cases hp : a.playing = false
  · simp [playNextStep, hp]
  · by_cases hidx : a.current_sequence.length ≤ a.current_step_idx
    · by_cases hlr : (0 : Int) < a.loop_remaining - 1
      · simp [playNextStep, hp, hidx, hlr, issueStep_parts]
      · by_cases hcb : a.has_cb = true
        · simp [playNextStep, hp, hidx, hlr, hcb, goto_rest_parts]
        · simp [playNextStep, hp, hidx, hlr, hcb, goto_rest_parts]
    · simp [playNextStep, hp, hidx, issueStep_parts]

theorem play_sequence_swap (a : ArmState) (x y : SMState) (tr : List Emit)
    (steps : List JFields) (loops : Int) (cb : Bool) :
    (play_sequence ⟨a, x, tr⟩ steps loops cb).arm
        = (play_sequence ⟨a, y, tr⟩ steps loops cb).arm
    ∧ (play_sequence ⟨a, x, tr⟩ steps loops cb).trace
        = (play_sequence ⟨a, y, tr⟩ steps loops cb).trace := by
  by_cases h : steps.isEmpty
  · simp [play_sequence, h]
  · simp only [play_sequence, h, Bool.false_eq_true, if_false]
    exact playNextStep_swap _ x y tr

theorem stop_sequence_swap (a : ArmState) (x y : SMState) (tr : List Emit) :
    (stop_sequence ⟨a, x, tr⟩).arm = (stop_sequence ⟨a, y, tr⟩).arm
    ∧ (stop_sequence ⟨a, x, tr⟩).trace = (stop_sequence ⟨a, y, tr⟩).trace := by
  by_cases hp : a.playing = false
  · simp [stop_sequence, hp, goto_rest_parts, send]
  · simp [stop_sequence, hp, goto_rest_parts, send]

theorem goto_rest_swap (a : ArmState) (x y : SMState) (tr : List Emit) :
    (goto_rest ⟨a, x, tr⟩).arm = (goto_rest ⟨a, y, tr⟩).arm
    ∧ (goto_rest ⟨a, x, tr⟩).trace = (goto_rest ⟨a, y, tr⟩).trace := by
  rw [goto_rest_parts, goto_rest_parts]
  exact ⟨rfl, rfl⟩

theorem playNextStep_ser_noSer (s : Sys) (h : s.ser.hasSer = false) :
    (playNextStep s).ser = s.ser := by
  rcases s with ⟨a, x, tr⟩
  by_cases hp : a.playing = false
  · simp [playNextStep, hp]
  · by_cases hidx : a.current_sequence.length ≤ a.current_step_idx
    · by_cases hlr : (0 : Int) < a.loop_remaining - 1
      · simp [playNextStep, hp, hidx, hlr, issueStep_parts,
              foldl_send_line_noSer _ _ h]
      · by_cases hcb : a.has_cb = true
        · simp [playNextStep, hp, hidx, hlr, hcb, goto_rest_parts,
                foldl_send_line_noSer _ _ h]
        · simp [playNextStep, hp, hidx, hlr, hcb, goto_rest_parts,
                foldl_send_line_noSer _ _ h]
    · simp [playNextStep, hp, hidx, issueStep_parts,
            foldl_send_line_noSer _ _ h]

theorem play_sequence_ser_noSer (s : Sys) (steps : List JFields) (loops : Int)
    (cb : Bool) (h : s.ser.hasSer = false) :
    (play_sequence s steps loops cb).ser = s.ser := by
  rcases s with ⟨a, x, tr⟩
  by_cases he : steps.isEmpty
  · simp [play_sequence, he]
  · simp only [play_sequence, he, Bool.false_eq_true, if_false]
    exact playNextStep_ser_noSer _ h

theorem stop_sequence_ser_noSer (s : Sys) (h : s.ser.hasSer = false) :
    (stop_sequence s).ser = s.ser := by
  rcases s with ⟨a, x, tr⟩
  by_cases hp : a.playing = false
  · simp [stop_sequence, hp, goto_rest_parts, send,
          send_line_noSer _ _ h, foldl_send_line_noSer _ _ h]
  · simp [stop_sequence, hp, goto_rest_parts, send,
          send_line_noSer _ _ h, foldl_send_line_noSer _ _ h]

theorem goto_rest_ser_noSer (s : Sys) (h : s.ser.hasSer = false) :
    (goto_rest s).ser = s.ser := by
  rcases s with ⟨a, x, tr⟩
  simp [goto_rest_parts, foldl_send_line_noSer _ _ h]

/-- Claim C10: with no connection open (`self.ser is None`),
`send_line` returns without effect and writes nothing, and
`play_sequence`, `stop_sequence` and `goto_rest` leave the serial
state untouched (every emitted command line is silently discarded)
while performing exactly the same controller state transitions and
emissions as with any other serial state. -/
theorem c10_no_connection_discards_lines (st : SMState) (l : String)
    (a : ArmState) (x y : SMState) (tr : List Emit) (steps : List JFields)
    (loops : Int) (cb : Bool) (hst : st.hasSer = false)
    (hx : x.hasSer = false) :
    st.send_line l = st
    ∧ (play_sequence ⟨a, x, tr⟩ steps loops cb).ser = x
    ∧ (stop_sequence ⟨a, x, tr⟩).ser = x
    ∧ (goto_rest ⟨a, x, tr⟩).ser = x
    ∧ (play_sequence ⟨a, x, tr⟩ steps loops cb).arm
        = (play_sequence ⟨a, y, tr⟩ steps loops cb).arm
    ∧ (play_sequence ⟨a, x, tr⟩ steps loops cb).trace
        = (play_sequence ⟨a, y, tr⟩ steps loops cb).trace
    ∧ (stop_sequence ⟨a, x, tr⟩).arm = (stop_sequence ⟨a, y, tr⟩).arm
    ∧ (stop_sequence ⟨a, x, tr⟩).trace = (stop_sequence ⟨a, y, tr⟩).trace :=
  ⟨send_line_noSer st l hst,
   play_sequence_ser_noSer ⟨a, x, tr⟩ steps loops cb hx,
   stop_sequence_ser_noSer ⟨a, x, tr⟩ hx,
   goto_rest_ser_noSer ⟨a, x, tr⟩ hx,
   (play_sequence_swap a x y tr steps loops cb).1,
   (play_sequence_swap a x y tr steps loops cb).2,
   (stop_sequence_swap a x y tr).1,
   (stop_sequence_swap a x y tr).2⟩

/-- Witness for claim C10 at a concrete unconnected state. -/
theorem c10_witness :
    (⟨false, false, "", []⟩ : SMState).send_line "M400"
        = (⟨false, false, "", []⟩ : SMState)
    ∧ (play_sequence sysNoSer [demoStep] 2 true).ser = sysNoSer.ser
    ∧ (stop_sequence sysNoSer).ser = sysNoSer.ser :=
  let h := c10_no_connection_discards_lines ⟨false, false, "", []⟩ "M400"
    initArm ⟨false, false, "", []⟩ ⟨true, true, "", []⟩ [] [demoStep] 2 true
    rfl rfl
  ⟨h.1, h.2.1, h.2.2.1⟩

/-! ## The looped-playback run (claims C1 and C6)

The invariant: after `play_sequence` and `j < Kn·L` acknowledgments
the controller is in `runArm steps A Kn j` and the trace holds exactly
the first `j + 1` step-issue blocks; the `Kn·L`-th acknowledgment
completes the session. -/

theorem mod_succ_of_lt (j L : Nat) (h : j % L + 1 < L) :
    (j + 1) % L = j % L + 1 := by
  have h1 : 1 % L = 1 := Nat.mod_eq_of_lt (by omega)
  rw [Nat.add_mod, h1, Nat.mod_eq_of_lt h]

theorem div_succ_of_lt (j L : Nat) (h : j % L + 1 < L) :
    (j + 1) / L = j / L := by
  rw [Nat.succ_div, if_neg, Nat.add_zero]
  intro hd
  have hL0 : 0 < L := by omega
  have h0 : (j + 1) % L = 0 := Nat.dvd_iff_mod_eq_zero.mp hd
  rw [mod_succ_of_lt j L h] at h0
  omega

theorem succ_decomp_of_mod_eq (j L : Nat) (hL : 0 < L) (h : j % L + 1 = L) :
    j + 1 = L * (j / L + 1) := by
  have hdm := Nat.div_add_mod j L
  have : L * (j / L) + (L - 1) = j := by omega
  have hmul : L * (j / L + 1) = L * (j / L) + L := by ring
  omega

/-- One acknowledgment in the middle of a pass: the next index is
still inside the sequence, so the next block is issued. -/
theorem ack_step_mid (s : Sys) (steps : List JFields) (A : Int) (Kn : Nat)
    (j : Nat) (hs : s.arm = runArm steps A Kn j)
    (hlt : j % steps.length + 1 < steps.length) :
    (on_serial_line s "ok").arm = runArm steps A Kn (j + 1)
    ∧ (on_serial_line s "ok").trace
        = s.trace ++ lineEmits true (blockOf steps A (j + 1)) := by
  have hmod := mod_succ_of_lt j steps.length hlt
  have hdiv := div_succ_of_lt j steps.length hlt
  rw [on_serial_line_ack _ _ (by rw [hs]; rfl) (by rw [hs]; rfl) (by decide)]
  have hu : ({ s with arm := { s.arm with waiting_for_ok := false } } : Sys).arm
      = { runArm steps A Kn j with waiting_for_ok := false } := by
    rw [show ({ s with arm := { s.arm with waiting_for_ok := false } } : Sys).arm
          = { s.arm with waiting_for_ok := false } from rfl, hs]
  rw [playNextStep_issue _ (by rw [hu]; rfl) (by rw [hu]; exact hlt)]
  constructor
  · rw [issueStep_arm, hu]
    ext <;> simp [runArm, hmod, hdiv]
  · rw [issueStep_trace, hu]
    rw [show ({ s with arm := { s.arm with waiting_for_ok := false } } : Sys).trace
          = s.trace from rfl]
    simp [runArm, blockOf, hmod]

/-- One acknowledgment at a pass boundary with loops remaining: the
index wraps to 0 and the first block of the next pass is issued. -/
theorem ack_step_wrap (s : Sys) (steps : List JFields) (A : Int) (Kn : Nat)
    (j : Nat) (hs : s.arm = runArm steps A Kn j)
    (heq : j % steps.length + 1 = steps.length)
    (hlt2 : j / steps.length + 1 < Kn) :
    (on_serial_line s "ok").arm = runArm steps A Kn (j + 1)
    ∧ (on_serial_line s "ok").trace
        = s.trace ++ lineEmits true (blockOf steps A (j + 1)) := by
  have hL0 : 0 < steps.length := by omega
  have hdecomp := succ_decomp_of_mod_eq j steps.length hL0 heq
  have hmod : (j + 1) % steps.length = 0 := by
    rw [hdecomp]; exact Nat.mul_mod_right _ _
  have hdiv : (j + 1) / steps.length = j / steps.length + 1 := by
    rw [hdecomp]; exact Nat.mul_div_cancel_left _ hL0
  rw [on_serial_line_ack _ _ (by rw [hs]; rfl) (by rw [hs]; rfl) (by decide)]
  have hu : ({ s with arm := { s.arm with waiting_for_ok := false } } : Sys).arm
      = { runArm steps A Kn j with waiting_for_ok := false } := by
    rw [show ({ s with arm := { s.arm with waiting_for_ok := false } } : Sys).arm
          = { s.arm with waiting_for_ok := false } from rfl, hs]
  have hlr : (1 : Int) <
      (({ s with arm := { s.arm with waiting_for_ok := false } } : Sys)
        ).arm.loop_remaining := by
    rw [hu]
    show (1 : Int) < (Kn : Int) - ((j / steps.length : Nat) : Int)
    have : ((j / steps.length : Nat) : Int) + 1 < (Kn : Int) := by
      exact_mod_cast hlt2
    omega
  rw [playNextStep_wrap _ (by rw [hu]; rfl)
        (by rw [hu]; exact Nat.le_of_eq heq.symm) hlr]
  constructor
  · rw [issueStep_arm, hu]
    ext <;> simp [runArm, hmod, hdiv] <;> omega
  · rw [issueStep_trace, hu]
    rw [show ({ ({ s with arm := { s.arm with waiting_for_ok := false } } : Sys)
            with arm := _ } : Sys).trace = s.trace from rfl]
    simp [runArm, blockOf, hmod]

/-- The final acknowledgment: the loop counter reaches zero, the
session completes, the callback fires and RestPose is emitted. -/
theorem ack_step_done (s : Sys) (steps : List JFields) (A : Int) (Kn : Nat)
    (j : Nat) (hs : s.arm = runArm steps A Kn j)
    (heq : j % steps.length + 1 = steps.length)
    (hKlast : j / steps.length + 1 = Kn) :
    (on_serial_line s "ok").arm.playing = false
    ∧ (on_serial_line s "ok").arm.waiting_for_ok = false
    ∧ (on_serial_line s "ok").trace
        = s.trace ++ ⟨.finished, false⟩ :: lineEmits false (restLines A) := by
  rw [on_serial_line_ack _ _ (by rw [hs]; rfl) (by rw [hs]; rfl) (by decide)]
  have hu : ({ s with arm := { s.arm with waiting_for_ok := false } } : Sys).arm
      = { runArm steps A Kn j with waiting_for_ok := false } := by
    rw [show ({ s with arm := { s.arm with waiting_for_ok := false } } : Sys).arm
          = { s.arm with waiting_for_ok := false } from rfl, hs]
  have hlr : (({ s with arm := { s.arm with waiting_for_ok := false } } : Sys)
      ).arm.loop_remaining ≤ 1 := by
    rw [hu]
    show (Kn : Int) - ((j / steps.length : Nat) : Int) ≤ 1
    have : ((j / steps.length : Nat) : Int) + 1 = (Kn : Int) := by
      exact_mod_cast hKlast
    omega
  rw [playNextStep_done _ (by rw [hu]; rfl)
        (by rw [hu]; exact Nat.le_of_eq heq.symm) hlr (by rw [hu]; rfl)]
  refine ⟨by rw [goto_rest_arm], by rw [goto_rest_arm], ?_⟩
  rw [goto_rest_trace]
  simp [hu, runArm, lineEmits, show s.arm.rest_angle = A from by rw [hs]; rfl]

theorem ack_invariant (s1 : Sys) (steps : List JFields) (A : Int) (Kn : Nat)
    (T0 : List Emit) (hL : 0 < steps.length)
    (harm : s1.arm = runArm steps A Kn 0)
    (htr : s1.trace = T0 ++ blocksUpTo steps A 1) :
    ∀ j, j < Kn * steps.length →
      (ackRun j s1).arm = runArm steps A Kn j
      ∧ (ackRun j s1).trace = T0 ++ blocksUpTo steps A (j + 1) := by
  intro j
  induction j with
  | zero => exact fun _ => ⟨harm, htr⟩
  | succ j ih =>
    intro hj
    obtain ⟨ha, ht⟩ := ih (Nat.lt_of_succ_lt hj)
    have hstep : ackRun (j + 1) s1 = on_serial_line (ackRun j s1) "ok" := rfl
    by_cases hlt : j % steps.length + 1 < steps.length
    · obtain ⟨h1, h2⟩ := ack_step_mid (ackRun j s1) steps A Kn j ha hlt
      refine ⟨by rw [hstep, h1], ?_⟩
      rw [hstep, h2, ht]
      simp [blocksUpTo, List.append_assoc]
    · have hmlt : j % steps.length < steps.length := Nat.mod_lt j hL
      have heq : j % steps.length + 1 = steps.length := by omega
      have hdecomp := succ_decomp_of_mod_eq j steps.length hL heq
      have hlt2 : j / steps.length + 1 < Kn := by
        have h2 : steps.length * (j / steps.length + 1)
            < steps.length * Kn := by
          rw [← hdecomp]
          calc j + 1 < Kn * steps.length := hj
            _ = steps.length * Kn := Nat.mul_comm _ _
        exact Nat.lt_of_mul_lt_mul_left h2
      obtain ⟨h1, h2⟩ := ack_step_wrap (ackRun j s1) steps A Kn j ha heq hlt2
      refine ⟨by rw [hstep, h1], ?_⟩
      rw [hstep, h2, ht]
      simp [blocksUpTo, List.append_assoc]

theorem ack_final (s1 : Sys) (steps : List JFields) (A : Int) (Kn : Nat)
    (T0 : List Emit) (hL : 0 < steps.length) (hK : 0 < Kn)
    (harm : s1.arm = runArm steps A Kn 0)
    (htr : s1.trace = T0 ++ blocksUpTo steps A 1) :
    (ackRun (Kn * steps.length) s1).arm.playing = false
    ∧ (ackRun (Kn * steps.length) s1).arm.waiting_for_ok = false
    ∧ (ackRun (Kn * steps.length) s1).trace
        = T0 ++ blocksUpTo steps A (Kn * steps.length)
          ++ ⟨.finished, false⟩ :: lineEmits false (restLines A) := by
  have hKL : 0 < Kn * steps.length := Nat.mul_pos hK hL
  have hn1 : Kn * steps.length - 1 + 1 = Kn * steps.length := by omega
  obtain ⟨ha, ht⟩ := ack_invariant s1 steps A Kn T0 hL harm htr
    (Kn * steps.length - 1) (by omega)
  have hstep : ackRun (Kn * steps.length) s1
      = on_serial_line (ackRun (Kn * steps.length - 1) s1) "ok" := by
    rw [← hn1]; rfl
  have hmod : (Kn * steps.length - 1) % steps.length + 1 = steps.length := by
    by_cases hlt : (Kn * steps.length - 1) % steps.length + 1 < steps.length
    · exfalso
      have hms := mod_succ_of_lt (Kn * steps.length - 1) steps.length hlt
      rw [hn1] at hms
      have h0 : Kn * steps.length % steps.length = 0 := Nat.mul_mod_left _ _
      omega
    · have := Nat.mod_lt (Kn * steps.length - 1) hL
      omega
  have hKlast : (Kn * steps.length - 1) / steps.length + 1 = Kn := by
    have hdecomp := succ_decomp_of_mod_eq (Kn * steps.length - 1)
      steps.length hL hmod
    rw [hn1] at hdecomp
    have hc : steps.length * Kn
        = steps.length * ((Kn * steps.length - 1) / steps.length + 1) := by
      rw [← hdecomp, Nat.mul_comm]
    have := Nat.eq_of_mul_eq_mul_left hL hc
    omega
  obtain ⟨h1, h2, h3⟩ := ack_step_done (ackRun (Kn * steps.length - 1) s1)
    steps A Kn (Kn * steps.length - 1) ha hmod hKlast
  refine ⟨by rw [hstep, h1], by rw [hstep, h2], ?_⟩
  rw [hstep, h3, ht, hn1]


theorem play_sequence_start (s0 : Sys) (steps : List JFields) (loops : Int)
    (hL : 0 < steps.length) :
    (play_sequence s0 steps loops true).arm
        = runArm steps s0.arm.rest_angle (max 1 loops).toNat 0
    ∧ (play_sequence s0 steps loops true).trace
        = s0.trace ++ blocksUpTo steps s0.arm.rest_angle 1 := by
  have hne : steps.isEmpty = false := by
    cases steps with
    | nil => simp at hL
    | cons a as => rfl
  have hK : ((max 1 loops).toNat : Int) = max 1 loops :=
    Int.toNat_of_nonneg (by omega)
  rw [show play_sequence s0 steps loops true
        = playNextStep { s0 with arm :=
            { playing := true, current_sequence := steps, current_step_idx := 0,
              waiting_for_ok := false, rest_angle := s0.arm.rest_angle,
              loop_total := max 1 loops, loop_remaining := max 1 loops,
              has_cb := true } }
      from by simp [play_sequence, hne]]
  rw [playNextStep_issue _ rfl (by simpa using hL)]
  constructor
  · rw [issueStep_arm]
    simp only [runArm, Nat.zero_mod, Nat.zero_div]
    simp [hK]
  · rw [issueStep_trace]
    simp [blocksUpTo, blockOf, Nat.zero_mod, lineEmits]

/-- Claim C1: for every sequence of `L ≥ 1` steps and every requested
loop count with clamped value `K = max 1 loops` (so `K ≥ 1`),
`play_sequence` followed by exactly `K·L` acknowledgment lines
produces exactly the `K·L` step-issue command blocks (`blocksUpTo`,
block `j` being the block of step `j % L`), followed by exactly one
completion-callback invocation and then exactly one RestPose
emission, ending with the session over; and after `j < K·L`
acknowledgments the trace holds exactly the first `j + 1` blocks, so
a block is emitted only once its predecessor's acknowledgment has
been delivered. -/
theorem c1_looped_playback_is_ack_gated (s0 : Sys) (steps : List JFields)
    (loops : Int) (hL : 0 < steps.length) :
    ((ackRun ((max 1 loops).toNat * steps.length)
        (play_sequence s0 steps loops true)).trace
      = s0.trace
        ++ blocksUpTo steps s0.arm.rest_angle
             ((max 1 loops).toNat * steps.length)
        ++ ⟨.finished, false⟩ ::
             lineEmits false (restLines s0.arm.rest_angle))
    ∧ (ackRun ((max 1 loops).toNat * steps.length)
        (play_sequence s0 steps loops true)).arm.playing = false
    ∧ ∀ j, j < (max 1 loops).toNat * steps.length →
        (ackRun j (play_sequence s0 steps loops true)).trace
          = s0.trace ++ blocksUpTo steps s0.arm.rest_angle (j + 1) := by
  have hK : 0 < (max 1 loops).toNat := by
    have h1 : (1 : Int) ≤ max 1 loops := le_max_left _ _
    omega
  obtain ⟨harm, htr⟩ := play_sequence_start s0 steps loops hL
  obtain ⟨h1, h2, h3⟩ := ack_final (play_sequence s0 steps loops true) steps
    s0.arm.rest_angle (max 1 loops).toNat s0.trace hL hK harm htr
  exact ⟨h3, h1,
    fun j hj => (ack_invariant (play_sequence s0 steps loops true) steps
      s0.arm.rest_angle (max 1 loops).toNat s0.trace hL harm htr j hj).2⟩

/-- Witness for claim C1: the spec's §8 scenario (one step, two
loops). -/
theorem c1_witness :
    (ackRun ((max 1 (2 : Int)).toNat * ([demoStep] : List JFields).length)
        (play_sequence sys0 [demoStep] 2 true)).arm.playing = false :=
  (c1_looped_playback_is_ack_gated sys0 [demoStep] 2 (by decide)).2.1

theorem countFinished_lineEmits (p : Bool) (ls : List String) :
    countFinished (lineEmits p ls) = 0 := by
  induction ls with
  | nil => rfl
  | cons l ls ih =>
    simp only [countFinished, lineEmits, List.map_cons, List.countP_cons] at *
    simp [isFin, ih]

theorem countFinished_append (a b : List Emit) :
    countFinished (a ++ b) = countFinished a + countFinished b :=
  List.countP_append _ _ _

theorem countFinished_blocksUpTo (steps : List JFields) (A : Int) (n : Nat) :
    countFinished (blocksUpTo steps A n) = 0 := by
  induction n with
  | zero => rfl
  | succ n ih =>
    simp [blocksUpTo, countFinished_append, countFinished_lineEmits, ih]

theorem stop_playing_false (s : Sys) :
    (stop_sequence s).arm.playing = false := by
  by_cases hp : s.arm.playing = false
  · rw [show stop_sequence s = goto_rest (send s "M901")
        from by simp [stop_sequence, hp]]
    rw [goto_rest_arm, send_arm]
    exact hp
  · rw [show stop_sequence s
        = goto_rest (send { s with arm :=
            { s.arm with playing := false, waiting_for_ok := false } } "M901")
        from by simp [stop_sequence, hp]]
    rw [goto_rest_arm, send_arm]

theorem stop_countFinished (s : Sys) :
    countFinished (stop_sequence s).trace = countFinished s.trace := by
  by_cases hp : s.arm.playing = false
  · rw [show stop_sequence s = goto_rest (send s "M901")
        from by simp [stop_sequence, hp]]
    rw [goto_rest_trace, send_trace, countFinished_append,
        countFinished_append, countFinished_lineEmits]
    simp [countFinished, List.countP_cons, isFin]
  · rw [show stop_sequence s
        = goto_rest (send { s with arm :=
            { s.arm with playing := false, waiting_for_ok := false } } "M901")
        from by simp [stop_sequence, hp]]
    rw [goto_rest_trace, send_trace, countFinished_append,
        countFinished_append, countFinished_lineEmits]
    simp [countFinished, List.countP_cons, isFin]

/-- Claim C6: for a session started by `play_sequence` with a supplied
callback, natural completion after `K·L` acknowledgments invokes the
completion callback exactly once (the run adds exactly one finished
event to the trace); `stop_sequence` never invokes it (it adds no
finished event); and after `stop_sequence` the session is gone, so no
later received line can fire the callback either (`on_serial_line` is
a no-op on the stopped state). -/
theorem c6_callback_once_and_never_on_stop (s0 : Sys) (steps : List JFields)
    (loops : Int) (hL : 0 < steps.length) (s : Sys) (line : String) :
    countFinished ((ackRun ((max 1 loops).toNat * steps.length)
        (play_sequence s0 steps loops true)).trace)
      = countFinished s0.trace + 1
    ∧ countFinished (stop_sequence s).trace = countFinished s.trace
    ∧ on_serial_line (stop_sequence s) line = stop_sequence s := by
  have hK : 0 < (max 1 loops).toNat := by
    have h1 : (1 : Int) ≤ max 1 loops := le_max_left _ _
    omega
  obtain ⟨harm, htr⟩ := play_sequence_start s0 steps loops hL
  obtain ⟨_, _, h3⟩ := ack_final (play_sequence s0 steps loops true) steps
    s0.arm.rest_angle (max 1 loops).toNat s0.trace hL hK harm htr
  refine ⟨?_, stop_countFinished s, ?_⟩
  · rw [h3, countFinished_append, countFinished_append,
        countFinished_blocksUpTo]
    have h4 : countFinished
        (⟨Ev.finished, false⟩ :: lineEmits false (restLines s0.arm.rest_angle))
        = countFinished (lineEmits false (restLines s0.arm.rest_angle)) + 1 := by
      simp [countFinished, List.countP_cons, isFin]
    rw [h4, countFinished_lineEmits]
  · refine on_serial_line_noop _ _ ?_
    rintro ⟨hp, -, -⟩
    rw [stop_playing_false] at hp
    simp at hp

/-- Witness for claim C6 at the spec's §8 scenario. -/
theorem c6_witness :
    countFinished ((ackRun ((max 1 (2 : Int)).toNat
          * ([demoStep] : List JFields).length)
        (play_sequence sys0 [demoStep] 2 true)).trace)
      = countFinished sys0.trace + 1
    ∧ countFinished (stop_sequence sys0).trace = countFinished sys0.trace
    ∧ on_serial_line (stop_sequence sys0) "M280 ok" = stop_sequence sys0 :=
  c6_callback_once_and_never_on_stop sys0 [demoStep] 2 (by decide) sys0
    "M280 ok"

/-! ## Transport line reassembly (claim C5) -/

theorem scanLines_no_nl (acc cs : List Char) (h : '\n' ∉ cs) :
    scanLines acc cs = ([], acc ++ cs) := by
  induction cs generalizing acc with
  | nil => simp [scanLines]
  | cons c cs ih =>
    have hc : ¬ c = '\n' := fun e => h (e ▸ List.mem_cons_self c cs)
    have h' : '\n' ∉ cs := fun m => h (List.mem_cons_of_mem _ m)
    simp [scanLines, hc, ih (acc ++ [c]) h']

theorem scanLines_split (acc pre rest : List Char) (h : '\n' ∉ pre) :
    scanLines acc (pre ++ '\n' :: rest)
      = (pyStrip (String.mk (acc ++ pre)) :: (scanLines [] rest).1,
         (scanLines [] rest).2) := by
  induction pre generalizing acc with
  | nil => simp [scanLines]
  | cons c pre ih =>
    have hc : ¬ c = '\n' := fun e => h (e ▸ List.mem_cons_self c pre)
    have h' : '\n' ∉ pre := fun m => h (List.mem_cons_of_mem _ m)
    simp [scanLines, hc, ih (acc ++ [c]) h', List.append_assoc]

/-- Claim C5: feeding `poll` the chunks `"ok"`, `"\nM"`, `"280 ok\n"`
across three successive calls emits exactly two lines, `"ok"` then
`"M280 ok"`, leaving an empty buffer; and in general, when the buffer
plus the new chunk contains a newline, the first complete segment is
emitted stripped of surrounding whitespace (including `\r`) and the
scan continues on the remainder, while a chunk completing no line
emits nothing and stays buffered. -/
theorem c5_poll_reassembles_lines :
    ((⟨true, true, "", []⟩ : SMState).poll "ok").2 = []
    ∧ (((⟨true, true, "", []⟩ : SMState).poll "ok").1.poll "\nM").2 = ["ok"]
    ∧ ((((⟨true, true, "", []⟩ : SMState).poll "ok").1.poll "\nM").1.poll
          "280 ok\n").2 = ["M280 ok"]
    ∧ ((((⟨true, true, "", []⟩ : SMState).poll "ok").1.poll "\nM").1.poll
          "280 ok\n").1.buffer = ""
    ∧ (∀ st : SMState, ∀ data pre : String, ∀ restc : List Char,
        st.hasSer = true → st.running = true → data ≠ "" →
        (st.buffer ++ data).data = pre.data ++ '\n' :: restc →
        '\n' ∉ pre.data →
        (st.poll data).2 = pyStrip pre :: (scanLines [] restc).1
        ∧ (st.poll data).1.buffer = String.mk (scanLines [] restc).2)
    ∧ (∀ st : SMState, ∀ data : String,
        st.hasSer = true → st.running = true → data ≠ "" →
        '\n' ∉ (st.buffer ++ data).data →
        (st.poll data).2 = [] ∧ (st.poll data).1.buffer = st.buffer ++ data) := by
  refine ⟨by decide, by decide, by decide, by decide, ?_, ?_⟩
  · intro st data pre restc hs hr hd hsplit hnp
    rw [show st.poll data
          = ({ st with buffer :=
                String.mk (scanLines [] (st.buffer ++ data).data).2 },
             (scanLines [] (st.buffer ++ data).data).1)
        from by simp [SMState.poll, hs, hr, hd]]
    rw [hsplit, scanLines_split [] pre.data restc hnp]
    exact ⟨rfl, rfl⟩
  · intro st data hs hr hd hnn
    rw [show st.poll data
          = ({ st with buffer :=
                String.mk (scanLines [] (st.buffer ++ data).data).2 },
             (scanLines [] (st.buffer ++ data).data).1)
        from by simp [SMState.poll, hs, hr, hd]]
    rw [scanLines_no_nl [] (st.buffer ++ data).data hnn]
    exact ⟨rfl, rfl⟩

/-- Witness for claim C5: the concrete three-chunk scenario. -/
theorem c5_witness :
    (((⟨true, true, "", []⟩ : SMState).poll "ok").1.poll "\nM").2 = ["ok"] :=
  c5_poll_reassembles_lines.2.1

/-! ## Parser round-trip lemmas (claims C3 and C9) -/

theorem mk_data (s : String) : String.mk s.data = s := rfl

theorem digitsToNat_append (ds : List Char) (c : Char) :
    digitsToNat (ds ++ [c]) = digitsToNat ds * 10 + (c.toNat - 48) := by
  simp [digitsToNat, List.foldl_append]

theorem digitChar_spec (d : Nat) (h : d < 10) :
    (digitChar d).isDigit = true ∧ (digitChar d).toNat - 48 = d := by
  interval_cases d <;> exact ⟨by decide, by decide⟩

theorem natDigitsF_spec (fuel : Nat) :
    ∀ n, n < fuel →
      (∀ c ∈ natDigitsF fuel n, c.isDigit = true)
      ∧ natDigitsF fuel n ≠ []
      ∧ digitsToNat (natDigitsF fuel n) = n := by
  induction fuel with
  | zero => exact fun n h => absurd h (Nat.not_lt_zero n)
  | succ fuel ih =>
    intro n h
    by_cases h10 : n < 10
    · refine ⟨?_, by simp [natDigitsF, h10], ?_⟩
      · intro c hc
        simp [natDigitsF, h10] at hc
        rw [hc]
        exact (digitChar_spec n h10).1
      · have hv := (digitChar_spec n h10).2
        simp [natDigitsF, h10, digitsToNat]
        omega
    · obtain ⟨hdig, hne, hval⟩ := ih (n / 10) (by omega)
      have hm := (digitChar_spec (n % 10) (by omega))
      refine ⟨?_, ?_, ?_⟩
      · intro c hc
        simp [natDigitsF, h10] at hc
        rcases hc with hc | hc
        · exact hdig c hc
        · rw [hc]; exact hm.1
      · simp [natDigitsF, h10]
      · rw [show natDigitsF (fuel + 1) n
              = natDigitsF fuel (n / 10) ++ [digitChar (n % 10)]
            from by simp [natDigitsF, h10]]
        rw [digitsToNat_append, hval]
        omega

theorem natChars_spec (n : Nat) :
    (∀ c ∈ natChars n, c.isDigit = true) ∧ natChars n ≠ []
    ∧ digitsToNat (natChars n) = n :=
  natDigitsF_spec (n + 1) n (by omega)

theorem takeDigits_exact (ds rest : List Char)
    (hds : ∀ c ∈ ds, c.isDigit = true)
    (hrest : ∀ c cs, rest = c :: cs → c.isDigit = false) :
    takeDigits (ds ++ rest) = (ds, rest) := by
  induction ds with
  | nil =>
    cases rest with
    | nil => rfl
    | cons c cs => simp [takeDigits, hrest c cs rfl]
  | cons d ds ih =>
    have hd : d.isDigit = true := hds d (List.mem_cons_self _ _)
    simp [takeDigits, hd, ih (fun c hc => hds c (List.mem_cons_of_mem _ hc))]

theorem takeDigits_exact_cons (d : Char) (ds rest : List Char)
    (hds : ∀ c ∈ d :: ds, c.isDigit = true)
    (hrest : ∀ c cs, rest = c :: cs → c.isDigit = false) :
    takeDigits (d :: (ds ++ rest)) = (d :: ds, rest) :=
  takeDigits_exact (d :: ds) rest hds hrest

theorem parseNumber_neg_eq (cs : List Char) :
    parseNumber ('-' :: cs)
      = (match takeDigits cs with
         | ([], _) => none
         | (d :: ds, r) => some (.jint (-(digitsToNat (d :: ds) : Int)), r)) := by
  unfold parseNumber
  dsimp only
  rw [if_pos rfl]

theorem parseNumber_other_eq (c : Char) (cs : List Char) (h : ¬ c = '-') :
    parseNumber (c :: cs)
      = (match takeDigits (c :: cs) with
         | ([], _) => none
         | (d :: ds, r) =>
           some (.jint ((digitsToNat (d :: ds) : Nat) : Int), r)) := by
  unfold parseNumber
  dsimp only
  rw [if_neg h]

theorem parseNumber_intChars (n : Int) (rest : List Char)
    (hrest : ∀ c cs, rest = c :: cs → c.isDigit = false) :
    parseNumber (intChars n ++ rest) = some (.jint n, rest) := by
  by_cases hn : n < 0
  · obtain ⟨hdig, hne, hval⟩ := natChars_spec n.natAbs
    rcases hna : natChars n.natAbs with _ | ⟨d, ds⟩
    · exact absurd hna hne
    rw [hna] at hdig hval
    rw [show intChars n ++ rest = '-' :: (d :: (ds ++ rest)) from by
          simp [intChars, hn, hna]]
    rw [parseNumber_neg_eq, takeDigits_exact_cons d ds rest hdig hrest]
    dsimp only
    rw [hval, show -((n.natAbs : Nat) : Int) = n from by omega]
  · obtain ⟨hdig, hne, hval⟩ := natChars_spec n.toNat
    rcases hna : natChars n.toNat with _ | ⟨d, ds⟩
    · exact absurd hna hne
    rw [hna] at hdig hval
    have hd : d.isDigit = true := hdig d (List.mem_cons_self _ _)
    have hdm : ¬ d = '-' := by
      intro e; rw [e] at hd; exact absurd hd (by decide)
    rw [show intChars n ++ rest = d :: (ds ++ rest) from by
          simp [intChars, hn, hna]]
    rw [parseNumber_other_eq d _ hdm, takeDigits_exact_cons d ds rest hdig hrest]
    dsimp only
    rw [hval, show ((n.toNat : Nat) : Int) = n from by omega]

theorem parseStringBody_esc (s : List Char) (rest : List Char) :
    parseStringBody (escString s ++ '"' :: rest) = some (s, rest) := by
  induction s with
  | nil =>
    show parseStringBody ('"' :: rest) = some ([], rest)
    unfold parseStringBody
    rw [if_pos rfl]
  | cons c s ih =>
    by_cases h1 : c = '"'
    · subst h1
      show parseStringBody ('\\' :: '"' :: (escString s ++ '"' :: rest))
          = some ('"' :: s, rest)
      unfold parseStringBody
      rw [if_neg (by decide : ¬ '\\' = '"'), if_pos rfl]
      dsimp only
      rw [show unesc '"' = some '"' from rfl]
      dsimp only
      rw [ih]
    · by_cases h2 : c = '\\'
      · subst h2
        show parseStringBody ('\\' :: '\\' :: (escString s ++ '"' :: rest))
            = some ('\\' :: s, rest)
        unfold parseStringBody
        rw [if_neg (by decide : ¬ '\\' = '"'), if_pos rfl]
        dsimp only
        rw [show unesc '\\' = some '\\' from rfl]
        dsimp only
        rw [ih]
      · by_cases h3 : c = '\n'
        · subst h3
          show parseStringBody ('\\' :: 'n' :: (escString s ++ '"' :: rest))
              = some ('\n' :: s, rest)
          unfold parseStringBody
          rw [if_neg (by decide : ¬ '\\' = '"'), if_pos rfl]
          dsimp only
          rw [show unesc 'n' = some '\n' from rfl]
          dsimp only
          rw [ih]
        · by_cases h4 : c = '\r'
          · subst h4
            show parseStringBody ('\\' :: 'r' :: (escString s ++ '"' :: rest))
                = some ('\r' :: s, rest)
            unfold parseStringBody
            rw [if_neg (by decide : ¬ '\\' = '"'), if_pos rfl]
            dsimp only
            rw [show unesc 'r' = some '\r' from rfl]
            dsimp only
            rw [ih]
          · by_cases h5 : c = '\t'
            · subst h5
              show parseStringBody ('\\' :: 't' :: (escString s ++ '"' :: rest))
                  = some ('\t' :: s, rest)
              unfold parseStringBody
              rw [if_neg (by decide : ¬ '\\' = '"'), if_pos rfl]
              dsimp only
              rw [show unesc 't' = some '\t' from rfl]
              dsimp only
              rw [ih]
            · rw [show escString (c :: s) ++ '"' :: rest
                    = c :: (escString s ++ '"' :: rest) from by
                    simp [escString, escChar, h1, h2, h3, h4, h5]]
              unfold parseStringBody
              rw [if_neg h1, if_neg h2, ih]

theorem skipWs_not_ws (c : Char) (cs : List Char) (h : wsChar c = false) :
    skipWs (c :: cs) = c :: cs := by
  simp [skipWs, h]

theorem wsChar_of_isDigit (c : Char) (h : c.isDigit = true) :
    wsChar c = false := by
  by_cases h1 : c = ' '
  · rw [h1] at h; exact absurd h (by decide)
  by_cases h2 : c = '\t'
  · rw [h2] at h; exact absurd h (by decide)
  by_cases h3 : c = '\n'
  · rw [h3] at h; exact absurd h (by decide)
  by_cases h4 : c = '\r'
  · rw [h4] at h; exact absurd h (by decide)
  simp [wsChar, h1, h2, h3, h4]

theorem ne_of_isDigit (c x : Char) (h : c.isDigit = true)
    (hx : x.isDigit = false) : ¬ c = x := by
  intro e; rw [e] at h; rw [h] at hx; cases hx

theorem parseVal_quote (fuel : Nat) (cs1 a r : List Char)
    (h : parseStringBody cs1 = some (a, r)) :
    parseVal (fuel + 1) ('"' :: cs1) = some (.jstr (String.mk a), r) := by
  unfold parseVal
  rw [skipWs_not_ws '"' cs1 rfl]
  dsimp only
  rw [if_pos rfl, h]

theorem parseVal_true (fuel : Nat) (cs1 r : List Char)
    (h : parseLit ['r', 'u', 'e'] cs1 = some r) :
    parseVal (fuel + 1) ('t' :: cs1) = some (.jbool true, r) := by
  unfold parseVal
  rw [skipWs_not_ws 't' cs1 rfl]
  dsimp only
  rw [if_neg (by decide), if_neg (by decide), if_neg (by decide),
      if_pos rfl, h]

theorem parseVal_false (fuel : Nat) (cs1 r : List Char)
    (h : parseLit ['a', 'l', 's', 'e'] cs1 = some r) :
    parseVal (fuel + 1) ('f' :: cs1) = some (.jbool false, r) := by
  unfold parseVal
  rw [skipWs_not_ws 'f' cs1 rfl]
  dsimp only
  rw [if_neg (by decide), if_neg (by decide), if_neg (by decide),
      if_neg (by decide), if_pos rfl, h]

theorem parseVal_null (fuel : Nat) (cs1 r : List Char)
    (h : parseLit ['u', 'l', 'l'] cs1 = some r) :
    parseVal (fuel + 1) ('n' :: cs1) = some (.jnull, r) := by
  unfold parseVal
  rw [skipWs_not_ws 'n' cs1 rfl]
  dsimp only
  rw [if_neg (by decide), if_neg (by decide), if_neg (by decide),
      if_neg (by decide), if_neg (by decide), if_pos rfl, h]

theorem parseVal_number (fuel : Nat) (c : Char) (cs1 : List Char)
    (out : Option (JVal × List Char)) (hws : wsChar c = false)
    (h1 : ¬ c = '"') (h2 : ¬ c = '[') (h3 : ¬ c = '{') (h4 : ¬ c = 't')
    (h5 : ¬ c = 'f') (h6 : ¬ c = 'n') (hnum : (c = '-' || c.isDigit) = true)
    (h : parseNumber (c :: cs1) = out) :
    parseVal (fuel + 1) (c :: cs1) = out := by
  unfold parseVal
  rw [skipWs_not_ws c cs1 hws]
  dsimp only
  rw [if_neg h1, if_neg h2, if_neg h3, if_neg h4, if_neg h5, if_neg h6,
      if_pos hnum, h]

theorem parseVal_arr_nil (fuel : Nat) (cs1 cs2 : List Char)
    (hskip : skipWs cs1 = ']' :: cs2) :
    parseVal (fuel + 1) ('[' :: cs1) = some (.jarr .nil, cs2) := by
  unfold parseVal
  rw [skipWs_not_ws '[' cs1 rfl]
  dsimp only
  rw [if_neg (by decide), if_pos rfl, hskip]
  dsimp only
  rw [if_pos rfl]

theorem parseVal_arr_cons (fuel : Nat) (cs1 cs2 r : List Char) (d : Char)
    (items : JItems) (hskip : skipWs cs1 = d :: cs2) (hne : ¬ d = ']')
    (h : parseItems fuel (d :: cs2) = some (items, r)) :
    parseVal (fuel + 1) ('[' :: cs1) = some (.jarr items, r) := by
  unfold parseVal
  rw [skipWs_not_ws '[' cs1 rfl]
  dsimp only
  rw [if_neg (by decide), if_pos rfl, hskip]
  dsimp only
  rw [if_neg hne, h]

theorem parseVal_obj_nil (fuel : Nat) (cs1 cs2 : List Char)
    (hskip : skipWs cs1 = '}' :: cs2) :
    parseVal (fuel + 1) ('{' :: cs1) = some (.jobj .fnil, cs2) := by
  unfold parseVal
  rw [skipWs_not_ws '{' cs1 rfl]
  dsimp only
  rw [if_neg (by decide), if_neg (by decide), if_pos rfl, hskip]
  dsimp only
  rw [if_pos rfl]

theorem parseVal_obj_cons (fuel : Nat) (cs1 cs2 r : List Char) (d : Char)
    (flds : JFields) (hskip : skipWs cs1 = d :: cs2) (hne : ¬ d = '}')
    (h : parseFields fuel (d :: cs2) = some (flds, r)) :
    parseVal (fuel + 1) ('{' :: cs1) = some (.jobj flds, r) := by
  unfold parseVal
  rw [skipWs_not_ws '{' cs1 rfl]
  dsimp only
  rw [if_neg (by decide), if_neg (by decide), if_pos rfl, hskip]
  dsimp only
  rw [if_neg hne, h]

theorem parseItems_step_comma (fuel : Nat) (cs r1 r2 r3 : List Char)
    (v : JVal) (items : JItems) (hv : parseVal fuel cs = some (v, r1))
    (hskip : skipWs r1 = ',' :: r2)
    (hrec : parseItems fuel r2 = some (items, r3)) :
    parseItems (fuel + 1) cs = some (.cons v items, r3) := by
  unfold parseItems
  rw [hv]
  dsimp only
  rw [hskip]
  dsimp only
  rw [if_pos rfl, hrec]

theorem parseItems_step_close (fuel : Nat) (cs r1 r2 : List Char) (v : JVal)
    (hv : parseVal fuel cs = some (v, r1)) (hskip : skipWs r1 = ']' :: r2) :
    parseItems (fuel + 1) cs = some (.cons v .nil, r2) := by
  unfold parseItems
  rw [hv]
  dsimp only
  rw [hskip]
  dsimp only
  rw [if_neg (by decide), if_pos rfl]

theorem parseFields_step_comma (fuel : Nat) (cs1 k r1 r2 r3 r4 r5 : List Char)
    (v : JVal) (flds : JFields)
    (hk : parseStringBody cs1 = some (k, r1)) (hc : skipWs r1 = ':' :: r2)
    (hv : parseVal fuel r2 = some (v, r3)) (he : skipWs r3 = ',' :: r4)
    (hrec : parseFields fuel r4 = some (flds, r5)) :
    parseFields (fuel + 1) ('"' :: cs1)
      = some (.fcons (String.mk k) v flds, r5) := by
  unfold parseFields
  rw [skipWs_not_ws '"' cs1 rfl]
  dsimp only
  rw [if_pos rfl, hk]
  dsimp only
  rw [hc]
  dsimp only
  rw [if_pos rfl, hv]
  dsimp only
  rw [he]
  dsimp only
  rw [if_pos rfl, hrec]

theorem parseFields_step_close (fuel : Nat) (cs1 k r1 r2 r3 r4 : List Char)
    (v : JVal)
    (hk : parseStringBody cs1 = some (k, r1)) (hc : skipWs r1 = ':' :: r2)
    (hv : parseVal fuel r2 = some (v, r3)) (he : skipWs r3 = '}' :: r4) :
    parseFields (fuel + 1) ('"' :: cs1)
      = some (.fcons (String.mk k) v .fnil, r4) := by
  unfold parseFields
  rw [skipWs_not_ws '"' cs1 rfl]
  dsimp only
  rw [if_pos rfl, hk]
  dsimp only
  rw [hc]
  dsimp only
  rw [if_pos rfl, hv]
  dsimp only
  rw [he]
  dsimp only
  rw [if_neg (by decide), if_pos rfl]

/-- Round trip for a scalar value when the following input does not
start with a digit (the serialised form is parsed back exactly). -/
theorem parseVal_scalar (v : JVal) (hs : isScalar v = true) (fuel : Nat)
    (rest : List Char) (hrest : ∀ c cs, rest = c :: cs → c.isDigit = false) :
    parseVal (fuel + 1) (serVal v ++ rest) = some (v, rest) := by
  cases v with
  | jarr items => exact absurd hs (by simp [isScalar])
  | jobj f => exact absurd hs (by simp [isScalar])
  | jnull =>
    show parseVal (fuel + 1) ('n' :: 'u' :: 'l' :: 'l' :: rest)
        = some (.jnull, rest)
    exact parseVal_null fuel _ rest rfl
  | jbool b =>
    cases b
    · show parseVal (fuel + 1) ('f' :: 'a' :: 'l' :: 's' :: 'e' :: rest)
          = some (.jbool false, rest)
      exact parseVal_false fuel _ rest rfl
    · show parseVal (fuel + 1) ('t' :: 'r' :: 'u' :: 'e' :: rest)
          = some (.jbool true, rest)
      exact parseVal_true fuel _ rest rfl
  | jstr str =>
    rw [show serVal (.jstr str) ++ rest
          = '"' :: (escString str.data ++ '"' :: rest) from by
          simp [serVal, serStr]]
    rw [parseVal_quote fuel _ str.data rest (parseStringBody_esc str.data rest)]
  | jint n =>
    by_cases hn : n < 0
    · rw [show serVal (.jint n) ++ rest = '-' :: (natChars n.natAbs ++ rest)
          from by simp [serVal, intChars, hn]]
      refine parseVal_number fuel '-' _ _ rfl (by decide) (by decide)
        (by decide) (by decide) (by decide) (by decide) (by simp) ?_
      rw [show '-' :: (natChars n.natAbs ++ rest) = intChars n ++ rest from by
            simp [intChars, hn]]
      exact parseNumber_intChars n rest hrest
    · obtain ⟨hdig, hne, -⟩ := natChars_spec n.toNat
      rcases hna : natChars n.toNat with _ | ⟨d, ds⟩
      · exact absurd hna hne
      have hd : d.isDigit = true := by
        rw [hna] at hdig; exact hdig d (List.mem_cons_self _ _)
      rw [show serVal (.jint n) ++ rest = d :: (ds ++ rest) from by
            simp [serVal, intChars, hn, hna]]
      refine parseVal_number fuel d _ _ (wsChar_of_isDigit d hd)
        (ne_of_isDigit d _ hd (by decide)) (ne_of_isDigit d _ hd (by decide))
        (ne_of_isDigit d _ hd (by decide)) (ne_of_isDigit d _ hd (by decide))
        (ne_of_isDigit d _ hd (by decide)) (ne_of_isDigit d _ hd (by decide))
        (by simp [hd]) ?_
      rw [show d :: (ds ++ rest) = intChars n ++ rest from by
            simp [intChars, hn, hna]]
      exact parseNumber_intChars n rest hrest

/-- Round trip for a non-empty run of scalar-valued fields followed by
the closing brace (strong induction on the number of fields, since the
mutual inductive has no dedicated induction tactic support). -/
theorem parseFields_flat_aux (N : Nat) :
    ∀ flds : JFields, numFields flds ≤ N →
    allScalarFields flds = true → flds ≠ .fnil →
    ∀ fuel rest, numFields flds < fuel →
      parseFields fuel (serFields flds ++ '}' :: rest) = some (flds, rest) := by
  induction N with
  | zero =>
    intro flds hN _ hne _ _ _
    cases flds with
    | fnil => exact absurd rfl hne
    | fcons k v tail => simp [numFields] at hN
  | succ N ihN =>
    intro flds hN hall hne fuel rest hfuel
    cases flds with
    | fnil => exact absurd rfl hne
    | fcons k v tail =>
    have ih : ∀ fuel rest, allScalarFields tail = true → tail ≠ .fnil →
        numFields tail < fuel →
        parseFields fuel (serFields tail ++ '}' :: rest)
          = some (tail, rest) := by
      intro fuel rest h1 h2 h3
      exact ihN tail (by simp [numFields] at hN; omega) h1 h2 fuel rest h3
    have hv : isScalar v = true := by
      have h := hall; simp [allScalarFields] at h; exact h.1
    have htail : allScalarFields tail = true := by
      have h := hall; simp [allScalarFields] at h; exact h.2
    rcases fuel with _ | fuel1
    · simp [numFields] at hfuel
    rcases fuel1 with _ | fuel2
    · simp [numFields] at hfuel
    cases tail with
    | fnil =>
      rw [show serFields (.fcons k v .fnil) ++ '}' :: rest
            = '"' :: (escString k.data
                ++ '"' :: (':' :: (serVal v ++ '}' :: rest))) from by
            simp [serFields, serStr, List.append_assoc]]
      have hbrace : ∀ c cs, ('}' :: rest : List Char) = c :: cs →
          c.isDigit = false := by
        intro c cs h; cases h; decide
      rw [parseFields_step_close (fuel2 + 1) _ k.data _ _ _ _ v
            (parseStringBody_esc k.data _) (skipWs_not_ws ':' _ rfl)
            (parseVal_scalar v hv fuel2 _ hbrace)
            (skipWs_not_ws '}' rest rfl)]
    | fcons k2 v2 t2 =>
      rw [show serFields (.fcons k v (.fcons k2 v2 t2)) ++ '}' :: rest
            = '"' :: (escString k.data ++ '"' :: (':' :: (serVal v
                ++ ',' :: (serFields (.fcons k2 v2 t2) ++ '}' :: rest))))
          from by simp [serFields, serStr, List.append_assoc]]
      have hcomma : ∀ c cs,
          (',' :: (serFields (.fcons k2 v2 t2) ++ '}' :: rest) : List Char)
            = c :: cs → c.isDigit = false := by
        intro c cs h; cases h; decide
      have hrec := ih (fuel2 + 1) rest htail (fun h => JFields.noConfusion h)
        (by simp [numFields] at hfuel ⊢; omega)
      rw [parseFields_step_comma (fuel2 + 1) _ k.data _ _ _ _ _ v _
            (parseStringBody_esc k.data _) (skipWs_not_ws ':' _ rfl)
            (parseVal_scalar v hv fuel2 _ hcomma)
            (skipWs_not_ws ',' _ rfl) hrec]

theorem parseFields_flat (flds : JFields) :
    allScalarFields flds = true → flds ≠ .fnil →
    ∀ fuel rest, numFields flds < fuel →
      parseFields fuel (serFields flds ++ '}' :: rest) = some (flds, rest) :=
  fun hall hne fuel rest hlt =>
    parseFields_flat_aux (numFields flds) flds (Nat.le_refl _) hall hne
      fuel rest hlt

/-- Round trip for one flat object. -/
theorem parseVal_flatObj (f : JFields) (hf : allScalarFields f = true) :
    ∀ fuel rest, numFields f + 1 ≤ fuel →
      parseVal (fuel + 1) (serVal (.jobj f) ++ rest)
        = some (.jobj f, rest) := by
  intro fuel rest hfuel
  cases f with
  | fnil =>
    rw [show serVal (.jobj .fnil) ++ rest = '{' :: ('}' :: rest) from by
          simp [serVal, serFields]]
    exact parseVal_obj_nil fuel _ rest rfl
  | fcons k v tail =>
    rw [show serVal (.jobj (.fcons k v tail)) ++ rest
          = '{' :: (serFields (.fcons k v tail) ++ '}' :: rest) from by
          simp [serVal, List.append_assoc]]
    obtain ⟨X, hX⟩ : ∃ X,
        serFields (.fcons k v tail) ++ '}' :: rest = '"' :: X := by
      cases tail with
      | fnil =>
        exact ⟨escString k.data ++ '"' :: (':' :: (serVal v ++ '}' :: rest)),
          by simp [serFields, serStr, List.append_assoc]⟩
      | fcons a b c =>
        exact ⟨escString k.data ++ '"' :: (':' :: (serVal v
            ++ ',' :: (serFields (.fcons a b c) ++ '}' :: rest))),
          by simp [serFields, serStr, List.append_assoc]⟩
    refine parseVal_obj_cons fuel _ X rest '"' (.fcons k v tail) ?_
      (by decide) ?_
    · rw [hX]; exact skipWs_not_ws '"' X rfl
    · rw [← hX]
      exact parseFields_flat (.fcons k v tail) hf
        (fun h => JFields.noConfusion h) fuel rest (by omega)

/-- Round trip for a non-empty run of flat objects followed by the
closing bracket. -/
theorem parseItems_flat_aux (N : Nat) :
    ∀ items : JItems, numItems items ≤ N →
    allFlatObjs items = true → items ≠ .nil →
    ∀ fuel rest, itemsNeed items ≤ fuel →
      parseItems fuel (serItems items ++ ']' :: rest) = some (items, rest) := by
  induction N with
  | zero =>
    intro items hN _ hne _ _ _
    cases items with
    | nil => exact absurd rfl hne
    | cons v tail => simp [numItems] at hN
  | succ N ihN =>
    intro items hN hall hne fuel rest hfuel
    cases items with
    | nil => exact absurd rfl hne
    | cons v tail =>
    have ih : ∀ fuel rest, allFlatObjs tail = true → tail ≠ .nil →
        itemsNeed tail ≤ fuel →
        parseItems fuel (serItems tail ++ ']' :: rest) = some (tail, rest) := by
      intro fuel rest h1 h2 h3
      exact ihN tail (by simp [numItems] at hN; omega) h1 h2 fuel rest h3
    cases v with
    | jnull => simp [allFlatObjs] at hall
    | jbool b => simp [allFlatObjs] at hall
    | jint n => simp [allFlatObjs] at hall
    | jstr str => simp [allFlatObjs] at hall
    | jarr its => simp [allFlatObjs] at hall
    | jobj f =>
      have hf : allScalarFields f = true := by
        have h := hall; simp [allFlatObjs] at h; exact h.1
      have htail : allFlatObjs tail = true := by
        have h := hall; simp [allFlatObjs] at h; exact h.2
      rcases fuel with _ | fuel1
      · simp [itemsNeed] at hfuel
      rcases fuel1 with _ | fuel2
      · simp [itemsNeed, valNeed] at hfuel
      cases tail with
      | nil =>
        rw [show serItems (.cons (.jobj f) .nil) ++ ']' :: rest
              = serVal (.jobj f) ++ ']' :: rest from by simp [serItems]]
        exact parseItems_step_close (fuel2 + 1) _ _ rest (.jobj f)
          (parseVal_flatObj f hf fuel2 _
            (by simp [itemsNeed, valNeed] at hfuel; omega))
          (skipWs_not_ws ']' rest rfl)
      | cons w t2 =>
        rw [show serItems (.cons (.jobj f) (.cons w t2)) ++ ']' :: rest
              = serVal (.jobj f)
                  ++ ',' :: (serItems (.cons w t2) ++ ']' :: rest) from by
              simp [serItems, List.append_assoc]]
        exact parseItems_step_comma (fuel2 + 1) _ _ _ rest (.jobj f)
          (.cons w t2)
          (parseVal_flatObj f hf fuel2 _
            (by simp [itemsNeed, valNeed] at hfuel; omega))
          (skipWs_not_ws ',' _ rfl)
          (ih (fuel2 + 1) rest htail (fun h => JItems.noConfusion h)
            (by simp [itemsNeed] at hfuel ⊢; omega))

theorem parseItems_flat (items : JItems) :
    allFlatObjs items = true → items ≠ .nil →
    ∀ fuel rest, itemsNeed items ≤ fuel →
      parseItems fuel (serItems items ++ ']' :: rest) = some (items, rest) :=
  fun hall hne fuel rest hle =>
    parseItems_flat_aux (numItems items) items (Nat.le_refl _) hall hne
      fuel rest hle

/-- Round trip for an array of flat objects. -/
theorem parseVal_stepArr (items : JItems) (h : allFlatObjs items = true) :
    ∀ fuel rest, itemsNeed items ≤ fuel →
      parseVal (fuel + 1) (serVal (.jarr items) ++ rest)
        = some (.jarr items, rest) := by
  intro fuel rest hfuel
  cases items with
  | nil =>
    rw [show serVal (.jarr .nil) ++ rest = '[' :: (']' :: rest) from by
          simp [serVal, serItems]]
    exact parseVal_arr_nil fuel _ rest rfl
  | cons v tail =>
    cases v with
    | jnull => simp [allFlatObjs] at h
    | jbool b => simp [allFlatObjs] at h
    | jint n => simp [allFlatObjs] at h
    | jstr str => simp [allFlatObjs] at h
    | jarr its => simp [allFlatObjs] at h
    | jobj f =>
      rw [show serVal (.jarr (.cons (.jobj f) tail)) ++ rest
            = '[' :: (serItems (.cons (.jobj f) tail) ++ ']' :: rest) from by
            simp [serVal, List.append_assoc]]
      obtain ⟨X, hX⟩ : ∃ X,
          serItems (.cons (.jobj f) tail) ++ ']' :: rest = '{' :: X := by
        cases tail with
        | nil =>
          exact ⟨serFields f ++ '}' :: ']' :: rest,
            by simp [serItems, serVal, List.append_assoc]⟩
        | cons a b =>
          exact ⟨serFields f ++ '}' :: ',' :: (serItems (.cons a b)
              ++ ']' :: rest),
            by simp [serItems, serVal, List.append_assoc]⟩
      refine parseVal_arr_cons fuel _ X rest '{' (.cons (.jobj f) tail) ?_
        (by decide) ?_
      · rw [hX]; exact skipWs_not_ws '{' X rfl
      · rw [← hX]
        exact parseItems_flat (.cons (.jobj f) tail) h
          (fun hh => JItems.noConfusion hh) fuel rest hfuel

/-! ## Fuel bounds: the `length + 1` fuel given by `loads` suffices -/

theorem natChars_length_pos (n : Nat) : 1 ≤ (natChars n).length :=
  List.length_pos.mpr (natChars_spec n).2.1

theorem serVal_length_pos (v : JVal) : 1 ≤ (serVal v).length := by
  cases v with
  | jnull => simp [serVal]
  | jbool b => cases b <;> simp [serVal]
  | jint n =>
    by_cases hn : n < 0
    · simp [serVal, intChars, hn]
    · simp only [serVal, intChars, if_neg hn]
      exact natChars_length_pos _
  | jstr s => simp [serVal, serStr]
  | jarr items => simp [serVal]
  | jobj f => simp [serVal]

theorem numFields_le_serFields_aux (N : Nat) :
    ∀ f : JFields, numFields f ≤ N →
      numFields f ≤ (serFields f).length := by
  induction N with
  | zero =>
    intro f hN
    cases f with
    | fnil => simp [numFields]
    | fcons k v t => simp [numFields] at hN
  | succ N ih =>
    intro f hN
    cases f with
    | fnil => simp [numFields]
    | fcons k v t =>
      cases t with
      | fnil =>
        have hv := serVal_length_pos v
        simp only [numFields, serFields, serStr, List.length_append,
          List.length_cons]
        omega
      | fcons k2 v2 t2 =>
        have hrec := ih (.fcons k2 v2 t2) (by simp [numFields] at hN ⊢; omega)
        have hv := serVal_length_pos v
        simp only [numFields, serFields, serStr, List.length_append,
          List.length_cons] at hrec ⊢
        omega

theorem numFields_le_serFields (f : JFields) :
    numFields f ≤ (serFields f).length :=
  numFields_le_serFields_aux (numFields f) f (Nat.le_refl _)

theorem itemsNeed_le_aux (N : Nat) :
    ∀ items : JItems, numItems items ≤ N → allFlatObjs items = true →
      itemsNeed items ≤ (serItems items).length + 1 := by
  induction N with
  | zero =>
    intro items hN _
    cases items with
    | nil => simp [itemsNeed, serItems]
    | cons v t => simp [numItems] at hN
  | succ N ih =>
    intro items hN hall
    cases items with
    | nil => simp [itemsNeed, serItems]
    | cons v tail =>
      cases v with
      | jnull => simp [allFlatObjs] at hall
      | jbool b => simp [allFlatObjs] at hall
      | jint n => simp [allFlatObjs] at hall
      | jstr str => simp [allFlatObjs] at hall
      | jarr its => simp [allFlatObjs] at hall
      | jobj f =>
        have htail : allFlatObjs tail = true := by
          have h := hall; simp [allFlatObjs] at h; exact h.2
        have hvle : valNeed (.jobj f) ≤ (serVal (.jobj f)).length := by
          have h := numFields_le_serFields f
          simp [valNeed, serVal, List.length_append]
          omega
        cases tail with
        | nil =>
          have h1 := serVal_length_pos (.jobj f)
          simp only [itemsNeed, serItems] at *
          omega
        | cons w t2 =>
          have hrec := ih (.cons w t2)
            (by simp [numItems] at hN ⊢; omega) htail
          have h1 := serVal_length_pos (.jobj f)
          simp only [itemsNeed, serItems, List.length_append,
            List.length_cons] at hrec ⊢
          omega

theorem itemsNeed_le (items : JItems) (h : allFlatObjs items = true) :
    itemsNeed items ≤ (serItems items).length + 1 :=
  itemsNeed_le_aux (numItems items) items (Nat.le_refl _) h

/-! ## The save/load round trip (claims C9 and C3) -/

theorem stepsJ_flat (l : List StepRec) :
    allFlatObjs (itemsOf (l.map StepRec.toJ)) = true := by
  induction l with
  | nil => rfl
  | cons r l ih =>
    simp [List.map_cons, itemsOf, allFlatObjs, StepRec.toJ,
      allScalarFields, isScalar, ih]

theorem loads_stepsJ (l : List StepRec) :
    loads (String.mk (serVal (stepsJ l))) = some (stepsJ l) := by
  show loads (String.mk (serVal (.jarr (itemsOf (l.map StepRec.toJ)))))
      = some (.jarr (itemsOf (l.map StepRec.toJ)))
  have hflat := stepsJ_flat l
  have hneed : itemsNeed (itemsOf (l.map StepRec.toJ))
      ≤ (serVal (.jarr (itemsOf (l.map StepRec.toJ)))).length := by
    have h1 := itemsNeed_le _ hflat
    have h2 : (serVal (.jarr (itemsOf (l.map StepRec.toJ)))).length
        = (serItems (itemsOf (l.map StepRec.toJ))).length + 2 := by
      simp [serVal, List.length_append]
    omega
  have hparse := parseVal_stepArr (itemsOf (l.map StepRec.toJ)) hflat
    ((serVal (.jarr (itemsOf (l.map StepRec.toJ)))).length) [] hneed
  rw [List.append_nil] at hparse
  unfold loads
  rw [show (String.mk (serVal
        (JVal.jarr (itemsOf (l.map StepRec.toJ))))).data
        = serVal (.jarr (itemsOf (l.map StepRec.toJ))) from rfl,
      show (String.mk (serVal
        (JVal.jarr (itemsOf (l.map StepRec.toJ))))).length
        = (serVal (.jarr (itemsOf (l.map StepRec.toJ)))).length from rfl,
      hparse]
  dsimp only
  rw [show skipWs [] = [] from rfl, if_pos rfl]

/-- Claim C9: for every stored sequence of step records — including
steps with empty-string `nano_cmd` and zero `pause`, and arbitrary
strings and integers in the documented fields — saving via
`TimelineManager.to_json` and loading the saved text into a fresh
`TimelineManager` succeeds and yields exactly the same stored steps
value: identical step count and identical field values for every
step. -/
theorem c9_save_load_round_trip (l : List StepRec) :
    TimelineManager.from_json_str TimelineManager.init
      (TimelineManager.to_json ⟨stepsJ l⟩) = .ok ⟨stepsJ l⟩ := by
  unfold TimelineManager.from_json_str TimelineManager.to_json
  rw [loads_stepsJ l]

/-- Claim C3, counterexample: the input `"42"` does not encode a
well-formed list of step records (it is not even a JSON array), yet
the load operation does not fail — `json.loads` accepts it and
`from_json_str` replaces the in-memory steps wholesale with the number
42, so both halves of the claim (fails with an error; leaves the list
exactly as before) are false on this input. -/
theorem c3_cex_invalid_input_accepted :
    TimelineManager.init.from_json_str "42" = .ok ⟨.jint 42⟩
    ∧ isStepRecordList (.jint 42) = false
    ∧ TimelineManager.init.steps ≠ .jint 42 := by
  refine ⟨rfl, rfl, ?_⟩
  decide

/-- Claim C3 (amended): the load is load-then-swap at the granularity
of JSON parsing — it fails exactly when the input is not valid JSON,
and the raised decode error propagates before `self.steps` is
assigned, so the in-memory list is untouched on failure; on any valid
JSON input (including values that are not lists of step records, which
are accepted rather than rejected) the stored value is replaced
wholesale, never merged or partially mutated. -/
theorem c3_load_fails_only_on_invalid_json (tm : TimelineManager)
    (s : String) :
    (loads s = none → tm.from_json_str s = .error "json.JSONDecodeError")
    ∧ (∀ v, loads s = some v →
        tm.from_json_str s = .ok { tm with steps := v })
    ∧ loads "[" = none
    ∧ TimelineManager.init.from_json_str "["
        = .error "json.JSONDecodeError" := by
  refine ⟨?_, ?_, rfl, rfl⟩
  · intro h
    unfold TimelineManager.from_json_str
    rw [h]
  · intro v h
    unfold TimelineManager.from_json_str
    rw [h]

/-- Witness for the amended claim C3 at a concrete malformed input. -/
theorem c3_witness :
    TimelineManager.init.from_json_str "\x7b"
        = Except.error "json.JSONDecodeError" :=
  (c3_load_fails_only_on_invalid_json TimelineManager.init "\x7b").1 rfl

end RobotArm
